import Mathlib

/-!
# Microdata extraction (`microdata.go`): a shallow embedding

The development follows `src/microdata.go`.

Modelling conventions.

* Go strings are modelled by Lean `String`s, i.e. as sequences of Unicode code
  points (the input is taken to be valid UTF-8, so that `range` over a string
  visits exactly its characters).
* A Go `map[string]interface{}` is modelled by an association list with unique
  keys, kept in insertion order (`Item`); only `lookup` observes it.
* An `interface{}` stored in such a map is a `Value`: a `string`, a nested map or
  a `[]interface{}`.
* The DOM handed over by goquery is a `Node` tree of text nodes and elements.
* `net/url` is an external library: the operations the source calls (`url.Parse`,
  `ResolveReference`, `String`) are fields of `UrlLib`, next to `IsAbs`, which says
  what an absolute base URL is.
* goquery is an external library as well: its document parser and the two halves
  of the markup round trip that `Parse` makes (`Html`, then the parse inside
  `ReplaceWithHtml`) are the fields of `HtmlLib`. The selections and the in-place
  edits of `Parse` (`Find`, `Each`, `Remove`, `ReplaceWithHtml`) are modelled by
  functions on the tree; a loop of the source that can go on is given a number of
  runs, and returns `none` when they do not suffice. What the round trip returns
  is left to the library: `sampleHtml` is a library with an exact round trip,
  `fragmentLib` one that loses tags as the HTML parser does outside their context.
* The `fmt.Printf` tracing calls of `extractItem` write to standard output only
  and are left out.
-/

namespace Microdata

/-! ## Go library functions on strings -/

/-- Go `unicode.IsSpace`: the Latin-1 white space characters
`'\t'`, `'\n'`, `'\v'`, `'\f'`, `'\r'`, `' '`, U+0085, U+00A0, and beyond Latin-1 the
code points of the Unicode `White_Space` property. -/
def isSpace (c : Char) : Bool :=
  let n := c.toNat
  (0x09 ≤ n && n ≤ 0x0D) || n == 0x20 || n == 0x85 || n == 0xA0 || n == 0x1680 ||
  (0x2000 ≤ n && n ≤ 0x200A) || n == 0x2028 || n == 0x2029 || n == 0x202F ||
  n == 0x205F || n == 0x3000

/-- Go `strings.TrimSpace` on the characters of a string: all leading and all
trailing white space (in the sense of `unicode.IsSpace`) is removed. -/
def trimSpaceChars (cs : List Char) : List Char :=
  ((cs.dropWhile isSpace).reverse.dropWhile isSpace).reverse

/-- Go `strings.TrimSpace`. -/
def trimSpace (s : String) : String :=
  ⟨trimSpaceChars s.data⟩

/-- Go `strings.Split(s, sep)` for a one-character separator, on the characters
of `s`: the pieces between consecutive occurrences of `sep`. The result always
has one piece more than there are separators; in particular it is never empty. -/
def splitChars (sep : Char) : List Char → List (List Char)
  | [] => [[]]
  | c :: cs =>
    if c = sep then [] :: splitChars sep cs
    else
      match splitChars sep cs with
      | [] => [[c]]
      | piece :: pieces => (c :: piece) :: pieces

/-- Go `strings.Split(s, "/")`-style splitting at a one-character separator. -/
def split (s : String) (sep : Char) : List String :=
  (splitChars sep s.data).map String.mk

/-! ## `stringMinifier` -/

/-- The loop of `stringMinifier`: `white` is the flag of the source, the result is
what the loop appends to `buf` while reading the remaining characters. -/
def minifyLoop : Bool → List Char → List Char
  | _, [] => []
  | white, c :: cs =>
    if isSpace c then
      if !white then ' ' :: minifyLoop true cs
      else minifyLoop true cs
    else c :: minifyLoop false cs

/-- Source `stringMinifier`: the buffer starts empty and `white` starts `false`. -/
def stringMinifier (s : String) : String :=
  ⟨minifyLoop false s.data⟩

/-! ## Data model -/

/-- What a `map[string]interface{}` of the result can hold: a `string`, a nested
`map[string]interface{}`, or a `[]interface{}`. -/
inductive Value where
  | scalar (s : String)
  | nested (fields : List (String × Value))
  | array (elems : List Value)

/-- A `map[string]interface{}`. -/
abbrev Item := List (String × Value)

/-- The test `reflect.TypeOf(v).Kind() == reflect.Slice`. -/
def Value.isArray : Value → Bool
  | .array _ => true
  | _ => false

/-- Map read `item[k]` with the `ok` flag: `none` when the key is absent. -/
def lookup : Item → String → Option Value
  | [], _ => none
  | (k', v) :: rest, k => if k' = k then some v else lookup rest k

/-- Map write `item[k] = v`: replaces the entry of `k`, or adds one. -/
def store : Item → String → Value → Item
  | [], k, v => [(k, v)]
  | (k', v') :: rest, k, v =>
    if k' = k then (k, v) :: rest else (k', v') :: store rest k v

/-- The accumulation step of `extractItem` (the source has it twice, once per
branch, lines 133-145 and 183-195): the new value is stored bare under a fresh
key, appended to a slice already there, and otherwise paired with the current
value in a new slice. -/
def accumulate (item : Item) (fieldname : String) (v : Value) : Item :=
  match lookup item fieldname with
  | some currentValue =>
    match currentValue with
    | .array anArray => store item fieldname (.array (anArray ++ [v]))
    | _ => store item fieldname (.array [currentValue, v])
  | none => store item fieldname v

/-- A DOM node as goquery presents it: a text node or an element with its
attributes (in document order) and its child nodes. -/
inductive Node where
  | text (data : String)
  | element (tag : String) (attrs : List (String × String)) (children : List Node)

/-- Source `Selection.Attr(name)`: the value of the first attribute of that name,
`none` when there is none. -/
def attr : List (String × String) → String → Option String
  | [], _ => none
  | (k, v) :: rest, name => if k = name then some v else attr rest name

/-- Whether a node is an element (what the selector `"*"` matches). -/
def Node.isElement : Node → Bool
  | .element _ _ _ => true
  | .text _ => false

/-- Source `selector.ChildrenFiltered("*")`: the child elements. -/
def elementChildren (children : List Node) : List Node :=
  children.filter Node.isElement

mutual
/-- Source `selector.Text()`: the text nodes of a node and of its descendants,
concatenated in document order. -/
def nodeText : Node → String
  | .text data => data
  | .element _ _ children => nodesText children
/-- The text of a sequence of sibling nodes, in document order. -/
def nodesText : List Node → String
  | [] => ""
  | c :: cs => nodeText c ++ nodesText cs
end

/-- The operations of Go's `net/url` that the source calls, over the library's
type `U` of parsed URLs: `url.Parse` (`none` stands for a non-nil error),
`(*URL).ResolveReference` (first argument the base, second the reference),
`(*URL).String` and `(*URL).IsAbs`. -/
structure UrlLib (U : Type) where
  parse : String → Option U
  resolveReference : U → U → U
  string : U → String
  isAbs : U → Bool

/-- The documented behaviour of `net/url` for an absolute base: the result of
`ResolveReference` has a scheme (the one of the reference, else the one of the
base), so its string form is not empty. -/
def UrlLib.AbsResolvesNonempty {U : Type} (lib : UrlLib U) : Prop :=
  ∀ base ref : U, lib.isAbs base = true → lib.string (lib.resolveReference base ref) ≠ ""

/-- Source `Parser`: the reader's content `r`, the result map `object` (`none` is
the nil map `NewParser` sets) and the base URL `base`. The struct declaration of
the source names the last two fields `Microdata` and `baseURL`; its functions
refer to them as `object` and `base`, the names kept here. -/
structure Parser (U : Type) where
  lib : UrlLib U
  r : String
  object : Option Item
  base : U

/-- Source `NewParser`. -/
def NewParser {U : Type} (lib : UrlLib U) (r : String) (baseURL : U) : Parser U :=
  ⟨lib, r, none, baseURL⟩

/-- Lines 123-126 and their two copies in the leaf branch: `url.Parse(href)`, and
on success `p.base.ResolveReference(relURL).String()`. -/
def resolve {U : Type} (p : Parser U) (href : String) : Option String :=
  match p.lib.parse href with
  | some relURL => some (p.lib.string (p.lib.resolveReference p.base relURL))
  | none => none

/-- The field name chosen by `extractItem` (lines 103-115). -/
def fieldName (attrs : List (String × String)) : String :=
  match attr attrs "itemprop" with
  | some itemprop => itemprop
  | none =>
    match attr attrs "itemtype" with
    | some itemtype =>
      let itemtypeComponents := split itemtype '/'
      if 0 < itemtypeComponents.length then
        itemtypeComponents.getD (itemtypeComponents.length - 1) ""
      else itemtype
    | none => ""

/-- The scalar value of an element without child elements (lines 147-182);
`text` is `selector.Text()`. -/
def leafValue {U : Type} (p : Parser U) (attrs : List (String × String)) (text : String) :
    String :=
  let value := ""
  let value :=
    match attr attrs "content" with
    | some content => if content ≠ "" then content else value
    | none => value
  let value :=
    if value = "" then
      match attr attrs "href" with
      | some content =>
        if content ≠ "" then
          match resolve p content with
          | some url => url
          | none => value
        else value
      | none => value
    else value
  let value :=
    if value = "" then
      match attr attrs "src" with
      | some content =>
        if content ≠ "" then
          match resolve p content with
          | some url => url
          | none => value
        else value
      | none => value
    else value
  let value :=
    if value = "" then trimSpace (stringMinifier text) else value
  value

/-- The fresh `newItem` of the nested branch after lines 119-129: it holds the
resolved `href` under `"url"` when the element has a non-empty `href` that parses,
and is empty otherwise. -/
def initialItem {U : Type} (p : Parser U) (attrs : List (String × String)) : Item :=
  let newItem : Item := []
  match attr attrs "href" with
  | some href =>
    if href ≠ "" then
      match resolve p href with
      | some url => store newItem "url" (.scalar url)
      | none => newItem
    else newItem
  | none => newItem

mutual
/-- Source `extractItem` on one node of a selection, writing into `item`.
Selections made with `"*"` hold elements only, so a text node is passed over. -/
def extractItem {U : Type} (p : Parser U) : Node → Item → Item
  | .text _, item => item
  | .element _ attrs children, item =>
    let fieldname := fieldName attrs
    if 0 < (elementChildren children).length then
      let newItem := extractEach p children (initialItem p attrs)
      accumulate item fieldname (.nested newItem)
    else
      let value := leafValue p attrs (nodesText children)
      accumulate item fieldname (.scalar value)
/-- The loop `sel.Each(func ... { p.extractItem(s, newItem) })` over the child
elements among the given nodes, in document order. -/
def extractEach {U : Type} (p : Parser U) : List Node → Item → Item
  | [], item => item
  | c :: cs, item => extractEach p cs (extractItem p c item)
end

/-- Lines 93-97 of `Parse`: the root map filled from the top-level elements of the
(pruned) document. -/
def extractDocument {U : Type} (p : Parser U) (roots : List Node) : Item :=
  extractEach p roots []

/-- The value `extractItem` contributes for an element: a nested map when the
element has child elements, a scalar string otherwise. -/
def contribution {U : Type} (p : Parser U) (attrs : List (String × String))
    (children : List Node) : Value :=
  if 0 < (elementChildren children).length then
    .nested (extractEach p children (initialItem p attrs))
  else .scalar (leafValue p attrs (nodesText children))

/-! ## The pruning pass and `Parse` -/

/-- The operations of goquery that `Parse` calls on the document, over the type
`M` of markup (a Go string that `Parse` only passes from `Html` to
`ReplaceWithHtml`): `goquery.NewDocumentFromReader` on the reader's content (the
child nodes of the document node, or an error), `Selection.Html` on an element with
the given child nodes, and the parse of markup into nodes that
`Selection.ReplaceWithHtml` performs. -/
structure HtmlLib (M : Type) where
  newDocument : String → Except String (List Node)
  html : List Node → M
  parseHtml : M → List Node

/-- An exact markup round trip: parsing the inner markup of an element yields its
child nodes unchanged. This describes an idealised library. The HTML parser
behind goquery is not exact on every node sequence (out of their context it
drops tags such as `body`, `tbody`, `tr` and `td`, and it merges adjacent text
nodes), so a statement that assumes this property describes the pruning pass over
such an idealised library, not every run of the code. -/
def HtmlLib.RoundTrip {M : Type} (h : HtmlLib M) : Prop :=
  ∀ nodes : List Node, h.parseHtml (h.html nodes) = nodes

/-- The selector `[itemprop],[itemscope]` on the attributes of an element. -/
def bearing (attrs : List (String × String)) : Bool :=
  (attr attrs "itemprop").isSome || (attr attrs "itemscope").isSome

/-- The selector `:not([itemprop],[itemscope])` on the attributes of an element. -/
def notBearing (attrs : List (String × String)) : Bool :=
  !bearing attrs

/-- The selector `*` on the attributes of an element. -/
def anyElement (_attrs : List (String × String)) : Bool :=
  true

mutual
/-- The elements among a node and its descendants that match a selector, in
document order. -/
def findNode (sel : List (String × String) → Bool) : Node → List Node
  | .text _ => []
  | .element tag attrs children =>
    if sel attrs then .element tag attrs children :: find sel children
    else find sel children
/-- Source `dom.Find(selector)` on the nodes below the document node (and
`Selection.Find` on the children of an element): the descendant elements that
match, in document order. -/
def find (sel : List (String × String) → Bool) : List Node → List Node
  | [] => []
  | c :: cs => findNode sel c ++ find sel cs
end

/-- The flag `found` of lines 61-72 for an element `s2` of `dom.Find("*")`: some
element `s` of `dom.Find("[itemprop],[itemscope]")` is `s2` itself
(`s2.IsSelection(s)`) or a descendant of `s2` (`s2.HasSelection(s)` is not
empty). -/
def found : Node → Bool
  | .text _ => false
  | .element _ attrs children => bearing attrs || decide (0 < (find bearing children).length)

mutual
/-- What lines 60-76 leave of a node: an element that is not `found` is removed
with all its content (`s2.Remove()`), any other node stays, its children treated
alike. -/
def removeNode : Node → List Node
  | .text data => [.text data]
  | .element tag attrs children =>
    if found (.element tag attrs children) then [.element tag attrs (removeEach children)]
    else []
/-- Lines 60-76 on a sequence of sibling nodes. -/
def removeEach : List Node → List Node
  | [] => []
  | c :: cs => removeNode c ++ removeEach cs
end

mutual
/-- One run of `selector.Each` in lines 79-88, on a node: an element of the
selection `:not([itemprop],[itemscope])` that is still in the document is replaced
by the parse of its inner markup (`s.Html()`, `s.ReplaceWithHtml(html)`); the
elements of the selection below it went out of the document with it, and the
nodes put in its place are new, so they are not visited in this run. Inside an
element with `itemprop` or `itemscope` the run goes on. -/
def unwrapNode {M : Type} (h : HtmlLib M) : Node → List Node
  | .text data => [.text data]
  | .element tag attrs children =>
    if bearing attrs then [.element tag attrs (unwrapEach h children)]
    else h.parseHtml (h.html children)
/-- One run of `selector.Each` in lines 79-88, on a sequence of sibling nodes. -/
def unwrapEach {M : Type} (h : HtmlLib M) : List Node → List Node
  | [] => []
  | c :: cs => unwrapNode h c ++ unwrapEach h cs
end

/-- The loop `for selector.Length() > 0` of lines 78-90; `none` when the given
number of runs does not bring it to its end. -/
def unwrapLoop {M : Type} (h : HtmlLib M) : Nat → List Node → Option (List Node)
  | 0, dom => if 0 < (find notBearing dom).length then none else some dom
  | fuel + 1, dom =>
    if 0 < (find notBearing dom).length then unwrapLoop h fuel (unwrapEach h dom)
    else some dom

/-- The pruning pass of `Parse` (lines 57-90): the removal, then the loop. -/
def prune {M : Type} (h : HtmlLib M) (fuel : Nat) (dom : List Node) : Option (List Node) :=
  unwrapLoop h fuel (removeEach dom)

/-- Source `Parse`: the returned error (`none` is `nil`) with the parser after the
call; the outer `none` when the loop of the pruning pass does not end within
`fuel` runs. -/
def Parse {M U : Type} (h : HtmlLib M) (fuel : Nat) (p : Parser U) :
    Option (Option String × Parser U) :=
  match h.newDocument p.r with
  | .error err => some (some err, p)
  | .ok dom =>
    match prune h fuel dom with
    | none => none
    | some dom => some (none, ⟨p.lib, p.r, some (extractDocument p dom), p.base⟩)

/-! ## Specification-side notions -/

/-- The values gathered under a key, read back from what the map holds: none for
an absent key, the elements of a slice, and else the single bare value. -/
def gathered : Option Value → List Value
  | none => []
  | some (.array elems) => elems
  | some v => [v]

/-- How a sequence of values contributed to one key is held by the map: nothing
for no value, the bare value for one, a slice of all of them for two or more. -/
def pack : List Value → Option Value
  | [] => none
  | [v] => some v
  | vs => some (.array vs)

/-- The attribute list without the attributes of the given name. -/
def removeAttr (attrs : List (String × String)) (name : String) : List (String × String) :=
  attrs.filter (fun kv => kv.1 ≠ name)

/-- What the `content` attribute yields as a value: its literal value, and the
empty string when the attribute is absent. -/
def contentYield (attrs : List (String × String)) : String :=
  match attr attrs "content" with
  | some content => content
  | none => ""

/-- What a URL attribute (`href`, `src`) yields as a value: its value resolved
against the base URL when it is present, non-empty and parses, and the empty
string otherwise. -/
def urlYield {U : Type} (p : Parser U) (attrs : List (String × String)) (name : String) :
    String :=
  match attr attrs name with
  | some content =>
    if content ≠ "" then
      match resolve p content with
      | some url => url
      | none => ""
    else ""
  | none => ""

/-- The maximal runs of a character sequence: it is cut wherever a white space
character meets a character that is not white space. -/
def runs : List Char → List (List Char)
  | [] => []
  | c :: cs =>
    match runs cs with
    | (d :: run) :: rest =>
      if isSpace c = isSpace d then (c :: d :: run) :: rest else [c] :: (d :: run) :: rest
    | rest => [c] :: rest

/-- A run of white space becomes one ASCII space, any other run is kept. -/
def collapseRun : List Char → List Char
  | [] => []
  | c :: run => if isSpace c then [' '] else c :: run

/-- The text minifier as the specification words it: every maximal run of white
space is replaced by a single ASCII space, everything else passes through. -/
def minifySpec (cs : List Char) : List Char :=
  ((runs cs).map collapseRun).flatten

/-- A URL of the sample library: the origin (`scheme://host`, empty for a relative
reference) and the path. -/
structure SampleUrl where
  origin : String
  path : String

/-- A small URL library used to run the extraction on concrete documents. It
knows relative references only: a string starting with `':'` does not parse
(Go reports a missing protocol scheme), any other string parses as a path. A
path starting with `'/'` replaces the path of the base, any other path is put
after it. -/
def sampleLib : UrlLib SampleUrl where
  parse := fun s =>
    match s.data with
    | ':' :: _ => none
    | _ => some ⟨"", s⟩
  resolveReference := fun base ref =>
    if ref.origin ≠ "" then ref
    else
      match ref.path.data with
      | '/' :: _ => ⟨base.origin, ref.path⟩
      | _ => ⟨base.origin, base.path ++ ref.path⟩
  string := fun u => u.origin ++ u.path
  isAbs := fun u => decide (u.origin ≠ "")

/-- A parser over the sample library with base URL `http://ex.com/`. -/
def sampleParser : Parser SampleUrl :=
  NewParser sampleLib "" ⟨"http://ex.com", "/"⟩

/-- The field name and the value an element of a selection contributes to its
destination; a text node contributes nothing. -/
def nodeContribution {U : Type} (p : Parser U) : Node → Option (String × Value)
  | .text _ => none
  | .element _ attrs children => some (fieldName attrs, contribution p attrs children)

/-- The values contributed under `key` by the elements among `nodes`, in document
order. -/
def childValues {U : Type} (p : Parser U) (nodes : List Node) (key : String) : List Value :=
  nodes.filterMap fun n =>
    match nodeContribution p n with
    | some (k, v) => if k = key then some v else none
    | none => none

/-- The value an element with child elements contributes itself under `key` to its
nested Item: its resolved `href`, under `"url"`. -/
def hrefValues {U : Type} (p : Parser U) (attrs : List (String × String)) (key : String) :
    List Value :=
  if key = "url" then
    match attr attrs "href" with
    | some href =>
      if href ≠ "" then
        match resolve p href with
        | some url => [.scalar url]
        | none => []
      else []
    | none => []
  else []

mutual
/-- The PropertyValue invariant on a value, at every depth: an Array has at least
two elements, none of them an Array, and the values inside are themselves
well formed. -/
def Value.wellFormed : Value → Bool
  | .scalar _ => true
  | .nested fields => fieldsWellFormed fields
  | .array elems => decide (2 ≤ elems.length) && elemsWellFormed elems
/-- Every value held by an Item is well formed. -/
def fieldsWellFormed : List (String × Value) → Bool
  | [] => true
  | kv :: rest => kv.2.wellFormed && fieldsWellFormed rest
/-- Every element of an Array is well formed and is not an Array. -/
def elemsWellFormed : List Value → Bool
  | [] => true
  | v :: rest => !v.isArray && v.wellFormed && elemsWellFormed rest
end

mutual
/-- Where the unwrapping ends, on a node: every element without `itemprop` and
`itemscope` is replaced by its children, at every depth. -/
def unwrapAllNode : Node → List Node
  | .text data => [.text data]
  | .element tag attrs children =>
    if bearing attrs then [.element tag attrs (unwrapAll children)]
    else unwrapAll children
/-- Where the unwrapping ends, on a sequence of sibling nodes. -/
def unwrapAll : List Node → List Node
  | [] => []
  | c :: cs => unwrapAllNode c ++ unwrapAll cs
end

mutual
/-- The pruned form of a node, as the specification words it: an element with
`itemprop` or `itemscope` stays, with its children pruned; any other element is
replaced by its pruned children when it has a descendant with `itemprop` or
`itemscope`, and is deleted with all its content when it has none; text outside
deleted elements stays. -/
def pruneSpecNode : Node → List Node
  | .text data => [.text data]
  | .element tag attrs children =>
    if bearing attrs then [.element tag attrs (pruneSpec children)]
    else if 0 < (find bearing children).length then pruneSpec children
    else []
/-- The pruned form of a sequence of sibling nodes. -/
def pruneSpec : List Node → List Node
  | [] => []
  | c :: cs => pruneSpecNode c ++ pruneSpec cs
end

mutual
/-- The nearest elements with `itemprop` or `itemscope` at or below a node: the
node itself when it is such an element, else those of its children. -/
def nearestBearingNode : Node → List Node
  | .text _ => []
  | .element tag attrs children =>
    if bearing attrs then [.element tag attrs children] else nearestBearing children
/-- The nearest elements with `itemprop` or `itemscope` in a sequence of sibling
nodes, in document order. -/
def nearestBearing : List Node → List Node
  | [] => []
  | c :: cs => nearestBearingNode c ++ nearestBearing cs
end

/-- An element of the original tree as it stands in the pruned tree: same tag, same
attributes, children pruned. -/
def pruneImage : Node → Node
  | .text data => .text data
  | .element tag attrs children => .element tag attrs (pruneSpec children)

/-- The tag and the attributes of an element. -/
def label : Node → String × List (String × String)
  | .text _ => ("", [])
  | .element tag attrs _ => (tag, attrs)

/-- A library for concrete documents: the document parser answers `doc` for every
reader, markup is the node sequence itself. -/
def sampleHtml (doc : Except String (List Node)) : HtmlLib (List Node) where
  newDocument := fun _ => doc
  html := fun nodes => nodes
  parseHtml := fun nodes => nodes

/-- A document with two levels of wrappers around the annotated elements:
`<html><head><title>T</title></head><body><div>intro <div itemscope itemprop="author">`
`<p><span itemprop="name">Jo</span> <b>bold</b></p></div><ul><li>x</li></ul></div></body></html>`. -/
def sampleDocument : List Node :=
  [.element "html" []
    [.element "head" [] [.element "title" [] [.text "T"]],
     .element "body" []
      [.element "div" []
        [.text "intro ",
         .element "div" [("itemscope", ""), ("itemprop", "author")]
          [.element "p" []
            [.element "span" [("itemprop", "name")] [.text "Jo"],
             .text " ",
             .element "b" [] [.text "bold"]]],
         .element "ul" [] [.element "li" [] [.text "x"]]]]]]

/-- The tree on the right is the tree on the left without some of its elements,
each deleted together with all its content, at any depth; every deleted element
carries neither `itemprop` nor `itemscope` and has no descendant carrying one. -/
inductive Deleted : List Node → List Node → Prop
  | nil : Deleted [] []
  | drop (tag : String) (attrs : List (String × String)) (children : List Node)
      {xs ys : List Node} :
      bearing attrs = false → find bearing children = [] → Deleted xs ys →
      Deleted (.element tag attrs children :: xs) ys
  | keepText (data : String) {xs ys : List Node} :
      Deleted xs ys → Deleted (.text data :: xs) (.text data :: ys)
  | keepElement (tag : String) (attrs : List (String × String))
      {children children' xs ys : List Node} :
      Deleted children children' → Deleted xs ys →
      Deleted (.element tag attrs children :: xs) (.element tag attrs children' :: ys)

/-- The tags whose start tag the HTML parser ignores while it parses markup in the
body context, the context in which the markup given to `ReplaceWithHtml` is
parsed: the content of such an element takes the place of the element. -/
def ignoredInBody : List String :=
  ["html", "head", "body", "caption", "col", "colgroup", "frame", "tbody", "td", "tfoot",
   "th", "thead", "tr"]

/-- Adjacent text nodes written out as markup come back from the parser as one
text node. -/
def mergeText : List Node → List Node
  | [] => []
  | n :: rest =>
    match n, mergeText rest with
    | .text a, .text b :: merged => .text (a ++ b) :: merged
    | n, merged => n :: merged

mutual
/-- What the parse of markup in the body context makes of a node that was written
out: an element whose start tag is ignored there gives way to its content, a
`table` element comes back with its rows and cells, any other element comes back
with its content parsed in the same way. -/
def fragmentNode : Node → List Node
  | .text data => [.text data]
  | .element tag attrs children =>
    if tag = "table" then [.element tag attrs children]
    else if tag ∈ ignoredInBody then fragmentNodes children
    else [.element tag attrs (mergeText (fragmentNodes children))]
/-- What the parse of markup in the body context makes of a sequence of sibling
nodes that was written out. -/
def fragmentNodes : List Node → List Node
  | [] => []
  | c :: cs => fragmentNode c ++ fragmentNodes cs
end

/-- A library whose markup round trip loses what the HTML parser of goquery loses
on the documents below: the document parser answers `doc` for every reader, markup
is the node sequence itself, and its parse drops the tags that are ignored in the
body context and merges adjacent text nodes. -/
def fragmentLib (doc : Except String (List Node)) : HtmlLib (List Node) where
  newDocument := fun _ => doc
  html := fun nodes => nodes
  parseHtml := fun nodes => mergeText (fragmentNodes nodes)

/-- The document that the HTML parser builds for
`<table><tr itemscope itemprop="row"><td itemprop="name">Jo</td></tr></table>`. -/
def tableDocument : List Node :=
  [.element "html" []
    [.element "head" [] [],
     .element "body" []
      [.element "table" []
        [.element "tbody" []
          [.element "tr" [("itemscope", ""), ("itemprop", "row")]
            [.element "td" [("itemprop", "name")] [.text "Jo"]]]]]]]

/-- The document that the HTML parser builds for
`<body itemscope itemtype="http://schema.org/Person"><span itemprop="name">Jo</span></body>`. -/
def bodyDocument : List Node :=
  [.element "html" []
    [.element "head" [] [],
     .element "body" [("itemscope", ""), ("itemtype", "http://schema.org/Person")]
      [.element "span" [("itemprop", "name")] [.text "Jo"]]]]

/-- The document that the HTML parser builds for
`<div><p itemprop="name">Jo <b>bold <i>and more</i></b>!</p><ul><li>x</li></ul></div>`. -/
def boldDocument : List Node :=
  [.element "html" []
    [.element "head" [] [],
     .element "body" []
      [.element "div" []
        [.element "p" [("itemprop", "name")]
          [.text "Jo ",
           .element "b" [] [.text "bold ", .element "i" [] [.text "and more"]],
           .text "!"],
         .element "ul" [] [.element "li" [] [.text "x"]]]]]]

/-- The sample document `boldDocument` without its elements that neither carry nor
contain microdata: `head`, `b` (with `i`) and `ul` (with `li`). -/
def boldDocumentDeleted : List Node :=
  [.element "html" []
    [.element "body" []
      [.element "div" []
        [.element "p" [("itemprop", "name")] [.text "Jo ", .text "!"]]]]]

/-! ## Theorems -/

/-! ### The map operations -/

theorem lookup_store (item : Item) (k k' : String) (v : Value) :
    lookup (store item k v) k' = if k = k' then some v else lookup item k' := by
  induction item with
  | nil =>
    by_cases h : k = k' <;> simp [store, lookup, h]
  | cons kv rest ih =>
    obtain ⟨k0, v0⟩ := kv
    by_cases h0 : k0 = k
    · subst h0
      by_cases h : k0 = k' <;> simp [store, lookup, h]
    · by_cases h : k = k'
      · subst h
        simp [store, lookup, h0, ih]
      · by_cases h1 : k0 = k'
        · subst h1
          simp [store, lookup, h0, h]
        · simp [store, lookup, h0, h, h1, ih]

theorem lookup_store_self (item : Item) (k : String) (v : Value) :
    lookup (store item k v) k = some v := by
  simp [lookup_store]

theorem lookup_store_other (item : Item) (k k' : String) (v : Value) (h : k ≠ k') :
    lookup (store item k v) k' = lookup item k' := by
  simp [lookup_store, h]

theorem lookup_accumulate_other (item : Item) (k k' : String) (v : Value) (h : k ≠ k') :
    lookup (accumulate item k v) k' = lookup item k' := by
  unfold accumulate
  split
  · split <;> exact lookup_store_other _ _ _ _ h
  · exact lookup_store_other _ _ _ _ h

/-- One accumulation step on a key that holds the packed form of `ws`. -/
theorem lookup_accumulate_pack (item : Item) (k : String) (ws : List Value) (x : Value)
    (hws : ∀ w ∈ ws, w.isArray = false) (hitem : lookup item k = pack ws) :
    lookup (accumulate item k x) k = pack (ws ++ [x]) := by
  unfold accumulate
  match ws, hws, hitem with
  | [], _, hitem =>
    simp only [pack] at hitem
    simp [hitem, lookup_store_self, pack]
  | [w], hws, hitem =>
    have hw := hws w (by simp)
    simp only [pack] at hitem
    rw [hitem]
    cases w with
    | array _ => simp [Value.isArray] at hw
    | scalar _ => simp [lookup_store_self, pack]
    | nested _ => simp [lookup_store_self, pack]
  | w1 :: w2 :: ws, _, hitem =>
    simp only [pack] at hitem
    rw [hitem]
    simp [lookup_store_self, pack]

/-- Accumulating a run of values under one key, from the packed form of `ws`. -/
theorem lookup_foldl_accumulate (k : String) (xs : List Value) :
    ∀ (item : Item) (ws : List Value), (∀ w ∈ ws, w.isArray = false) →
      (∀ x ∈ xs, x.isArray = false) → lookup item k = pack ws →
      lookup (xs.foldl (fun it x => accumulate it k x) item) k = pack (ws ++ xs) := by
  induction xs with
  | nil => intro item ws _ _ h; simpa using h
  | cons x xs ih =>
    intro item ws hws hxs h
    have hx : x.isArray = false := hxs x (by simp)
    have step := lookup_accumulate_pack item k ws x hws h
    have hws' : ∀ w ∈ ws ++ [x], w.isArray = false := by
      intro w hw
      rcases List.mem_append.mp hw with hw | hw
      · exact hws w hw
      · simp at hw; subst hw; exact hx
    have := ih (accumulate item k x) (ws ++ [x]) hws'
      (fun y hy => hxs y (List.mem_cons_of_mem _ hy)) step
    simpa using this

/-- C1 (accumulator law): values that are scalar strings or nested Items,
accumulated one after another under a key that the item does not hold yet, leave
under that key the bare value when there is one of them, and otherwise an Array
of all of them in call order. -/
theorem accumulate_law (item : Item) (key : String) (v : Value) (vs : List Value)
    (habsent : lookup item key = none)
    (hvals : ∀ x ∈ v :: vs, x.isArray = false) :
    (vs = [] → lookup ((v :: vs).foldl (fun it x => accumulate it key x) item) key = some v) ∧
    (vs ≠ [] → lookup ((v :: vs).foldl (fun it x => accumulate it key x) item) key
        = some (.array (v :: vs))) := by
  have h := lookup_foldl_accumulate key (v :: vs) item [] (by simp) hvals
    (by simpa [pack] using habsent)
  simp only [List.nil_append] at h
  constructor
  · intro hvs
    subst hvs
    simpa [pack] using h
  · intro hvs
    rw [h]
    cases vs with
    | nil => exact absurd rfl hvs
    | cons _ _ => rfl

/-- C1 at a concrete input: three values accumulated under the fresh key `"tag"`
of an item that holds another key. -/
theorem accumulate_law_witness :
    lookup [("name", Value.scalar "n")] "tag" = none ∧
    ((([Value.nested [("k", .scalar "b")], .scalar "c"] : List Value) = [] →
      lookup (([Value.scalar "a", .nested [("k", .scalar "b")], .scalar "c"]).foldl
        (fun it x => accumulate it "tag" x) [("name", Value.scalar "n")]) "tag"
        = some (Value.scalar "a")) ∧
     (([Value.nested [("k", .scalar "b")], .scalar "c"] : List Value) ≠ [] →
      lookup (([Value.scalar "a", .nested [("k", .scalar "b")], .scalar "c"]).foldl
        (fun it x => accumulate it "tag" x) [("name", Value.scalar "n")]) "tag"
        = some (.array [Value.scalar "a", .nested [("k", .scalar "b")], .scalar "c"]))) :=
  ⟨rfl, accumulate_law [("name", Value.scalar "n")] "tag" (.scalar "a")
    [.nested [("k", .scalar "b")], .scalar "c"] rfl (by simp [Value.isArray])⟩

/-! ### The field name -/

/-- What `extractItem` does to the destination: one accumulation step, under the
element's field name, of the value the element contributes. -/
theorem extractItem_element {U : Type} (p : Parser U) (tag : String)
    (attrs : List (String × String)) (children : List Node) (item : Item) :
    extractItem p (.element tag attrs children) item
      = accumulate item (fieldName attrs) (contribution p attrs children) := by
  unfold contribution
  rw [extractItem]
  split <;> rfl

/-- The loop over the children visits the child elements: text nodes among the
children are passed over. -/
theorem extractEach_elementChildren {U : Type} (p : Parser U) (nodes : List Node) :
    ∀ item, extractEach p nodes item = extractEach p (elementChildren nodes) item := by
  induction nodes with
  | nil => intro item; rfl
  | cons c cs ih =>
    intro item
    cases c with
    | text d =>
      have h : elementChildren (Node.text d :: cs) = elementChildren cs := by
        simp [elementChildren, Node.isElement]
      rw [h, extractEach, extractItem]
      exact ih item
    | element tag attrs children =>
      have h : elementChildren (Node.element tag attrs children :: cs)
          = Node.element tag attrs children :: elementChildren cs := by
        simp [elementChildren, Node.isElement]
      rw [h, extractEach, extractEach]
      exact ih _

/-- C3: an element with an `itemprop` attribute is filed under the literal value of
that attribute, whatever its other attributes (an `itemtype` among them) are and
whatever the value is (the empty string included): `extractItem` accumulates the
element's value into the destination under exactly that key. -/
theorem fieldName_itemprop {U : Type} (p : Parser U) (tag : String)
    (attrs : List (String × String)) (children : List Node) (item : Item) (itemprop : String)
    (hprop : attr attrs "itemprop" = some itemprop) :
    fieldName attrs = itemprop ∧
    extractItem p (.element tag attrs children) item
      = accumulate item itemprop (contribution p attrs children) := by
  have h : fieldName attrs = itemprop := by simp [fieldName, hprop]
  exact ⟨h, by rw [extractItem_element, h]⟩

/-- The last piece of a split, and how the input decomposes around it. -/
theorem splitChars_last (sep : Char) (cs : List Char) :
    ∃ piece pieces, splitChars sep cs = piece :: pieces ∧
      ∀ l, (piece :: pieces).getLast? = some l →
        sep ∉ l ∧ ((pieces = [] ∧ cs = l) ∨ (pieces ≠ [] ∧ ∃ pre, cs = pre ++ sep :: l)) := by
  induction cs with
  | nil =>
    refine ⟨[], [], rfl, ?_⟩
    intro l hl
    simp at hl
    subst hl
    simp
  | cons c cs ih =>
    obtain ⟨piece, pieces, hsplit, hlast⟩ := ih
    by_cases hc : c = sep
    · refine ⟨[], piece :: pieces, by simp [splitChars, hc, hsplit], ?_⟩
      intro l hl
      rw [List.getLast?_cons_cons] at hl
      obtain ⟨hmem, hdec⟩ := hlast l hl
      refine ⟨hmem, Or.inr ⟨by simp, ?_⟩⟩
      rcases hdec with ⟨_, hcs⟩ | ⟨_, pre, hcs⟩
      · exact ⟨[], by simp [hc, hcs]⟩
      · exact ⟨c :: pre, by simp [hcs]⟩
    · refine ⟨c :: piece, pieces, by simp [splitChars, hc, hsplit], ?_⟩
      intro l hl
      cases pieces with
      | nil =>
        simp at hl
        subst hl
        obtain ⟨hmem, hdec⟩ := hlast piece (by simp)
        rcases hdec with ⟨_, hcs⟩ | ⟨hne, _⟩
        · refine ⟨?_, Or.inl ⟨rfl, by rw [hcs]⟩⟩
          intro hin
          rcases List.mem_cons.mp hin with h | h
          · exact hc h.symm
          · exact hmem h
        · exact absurd rfl hne
      | cons q qs =>
        rw [List.getLast?_cons_cons] at hl
        obtain ⟨hmem, hdec⟩ := hlast l (by rw [List.getLast?_cons_cons]; exact hl)
        refine ⟨hmem, Or.inr ⟨by simp, ?_⟩⟩
        rcases hdec with ⟨hnil, _⟩ | ⟨_, pre, hcs⟩
        · simp at hnil
        · exact ⟨c :: pre, by simp [hcs]⟩

/-- The field name taken from an `itemtype`: the last component of the split. -/
theorem fieldName_itemtype_eq (attrs : List (String × String)) (itemtype : String)
    (hprop : attr attrs "itemprop" = none) (htype : attr attrs "itemtype" = some itemtype) :
    (splitChars '/' itemtype.data).getLast? = some (fieldName attrs).data := by
  obtain ⟨piece, pieces, hsplit, -⟩ := splitChars_last '/' itemtype.data
  have hlen : 0 < (split itemtype '/').length := by simp [split, hsplit]
  have hf : fieldName attrs
      = (split itemtype '/').getD ((split itemtype '/').length - 1) "" := by
    simp only [fieldName, hprop, htype]
    rw [if_pos hlen]
  rw [hf, List.getLast?_eq_getElem?, List.getD_eq_getElem?_getD]
  simp only [split, List.length_map, List.getElem?_map]
  have hlt : (splitChars '/' itemtype.data).length - 1 < (splitChars '/' itemtype.data).length := by
    rw [hsplit]; simp
  rw [List.getElem?_eq_getElem hlt]
  simp

/-- C4: an element without `itemprop` and with an `itemtype` is filed under the part
of the `itemtype` value after its last `'/'`: the field name holds no `'/'`, the
`itemtype` value ends with `'/'` followed by the field name when it contains a
`'/'`, and the field name is the whole value when it contains none. -/
theorem fieldName_itemtype {U : Type} (p : Parser U) (tag : String)
    (attrs : List (String × String)) (children : List Node) (item : Item) (itemtype : String)
    (hprop : attr attrs "itemprop" = none) (htype : attr attrs "itemtype" = some itemtype) :
    '/' ∉ (fieldName attrs).data ∧
    ('/' ∈ itemtype.data → ∃ pre, itemtype.data = pre ++ '/' :: (fieldName attrs).data) ∧
    ('/' ∉ itemtype.data → fieldName attrs = itemtype) ∧
    extractItem p (.element tag attrs children) item
      = accumulate item (fieldName attrs) (contribution p attrs children) := by
  obtain ⟨piece, pieces, hsplit, hlast⟩ := splitChars_last '/' itemtype.data
  have heq := fieldName_itemtype_eq attrs itemtype hprop htype
  rw [hsplit] at heq
  obtain ⟨hmem, hdec⟩ := hlast _ heq
  refine ⟨hmem, ?_, ?_, extractItem_element p tag attrs children item⟩
  · intro hin
    rcases hdec with ⟨_, hcs⟩ | ⟨_, pre, hcs⟩
    · rw [hcs] at hin
      exact absurd hin hmem
    · exact ⟨pre, hcs⟩
  · intro hnot
    rcases hdec with ⟨_, hcs⟩ | ⟨_, pre, hcs⟩
    · exact String.ext hcs.symm
    · exact absurd (by rw [hcs]; simp) hnot

/-- C4 at `itemtype="http://schema.org/Person"`: the field name is `"Person"`. -/
theorem fieldName_itemtype_witness :
    fieldName [("itemscope", ""), ("itemtype", "http://schema.org/Person")] = "Person" ∧
    '/' ∉ (fieldName [("itemscope", ""), ("itemtype", "http://schema.org/Person")]).data ∧
    ('/' ∈ ("http://schema.org/Person" : String).data →
      ∃ pre, ("http://schema.org/Person" : String).data
        = pre ++ '/' :: (fieldName [("itemscope", ""), ("itemtype", "http://schema.org/Person")]).data) :=
  have h := fieldName_itemtype sampleParser "div"
    [("itemscope", ""), ("itemtype", "http://schema.org/Person")] [] []
    "http://schema.org/Person" (by decide) (by decide)
  ⟨by decide, h.1, h.2.1⟩

/-! ### One extraction step on the destination -/

theorem gathered_accumulate (item : Item) (k : String) (v : Value)
    (hv : v.isArray = false) :
    gathered (lookup (accumulate item k v) k) = gathered (lookup item k) ++ [v] := by
  unfold accumulate
  cases h : lookup item k with
  | none =>
    cases v <;> simp_all [lookup_store_self, gathered, Value.isArray]
  | some cur =>
    cases cur <;> simp [lookup_store_self, gathered]

theorem contribution_isArray {U : Type} (p : Parser U) (attrs : List (String × String))
    (children : List Node) : (contribution p attrs children).isArray = false := by
  unfold contribution
  split <;> rfl

/-- C5 (fail-open on a missing name): an element with neither `itemprop` nor
`itemtype` is not skipped: `extractItem` accumulates the value it contributes (a
scalar string or a nested Item, by the usual branch) under the empty-string key,
which afterwards is present and holds exactly one more value than before. -/
theorem missing_name_empty_key {U : Type} (p : Parser U) (tag : String)
    (attrs : List (String × String)) (children : List Node) (item : Item)
    (hprop : attr attrs "itemprop" = none) (htype : attr attrs "itemtype" = none) :
    fieldName attrs = "" ∧
    extractItem p (.element tag attrs children) item
      = accumulate item "" (contribution p attrs children) ∧
    ((∃ s, contribution p attrs children = .scalar s) ∨
      (∃ it, contribution p attrs children = .nested it)) ∧
    gathered (lookup (extractItem p (.element tag attrs children) item) "")
      = gathered (lookup item "") ++ [contribution p attrs children] := by
  have h : fieldName attrs = "" := by simp [fieldName, hprop, htype]
  have hx : extractItem p (.element tag attrs children) item
      = accumulate item "" (contribution p attrs children) := by
    rw [extractItem_element, h]
  refine ⟨h, hx, ?_, ?_⟩
  · unfold contribution
    split
    · exact Or.inr ⟨_, rfl⟩
    · exact Or.inl ⟨_, rfl⟩
  · rw [hx]
    exact gathered_accumulate _ _ _ (contribution_isArray p attrs children)

/-! ### The value of a leaf -/

/-- One URL stage of the leaf branch (lines 154-165 for `href`, 166-177 for
`src`): it is entered only while the value is empty, and then gives what the
attribute yields. -/
theorem urlStage_eq {U : Type} (p : Parser U) (attrs : List (String × String))
    (name value : String) :
    (if value = "" then
      match attr attrs name with
      | some content =>
        if content ≠ "" then
          match resolve p content with
          | some url => url
          | none => value
        else value
      | none => value
    else value) = if value = "" then urlYield p attrs name else value := by
  by_cases hv : value = ""
  · subst hv
    simp only [if_true, urlYield]
  · simp only [hv, if_false]

/-- The value resolver of the leaf branch: the first non-empty value among what
`content`, `href` and `src` yield, and else the minified and trimmed text. -/
theorem leafValue_eq {U : Type} (p : Parser U) (attrs : List (String × String))
    (text : String) :
    leafValue p attrs text =
      if contentYield attrs ≠ "" then contentYield attrs
      else if urlYield p attrs "href" ≠ "" then urlYield p attrs "href"
      else if urlYield p attrs "src" ≠ "" then urlYield p attrs "src"
      else trimSpace (stringMinifier text) := by
  have hcontent : (match attr attrs "content" with
      | some content => if content ≠ "" then content else ""
      | none => "") = contentYield attrs := by
    unfold contentYield
    cases attr attrs "content" with
    | none => rfl
    | some c => by_cases hc : c = "" <;> simp [hc]
  simp only [leafValue, urlStage_eq, hcontent]
  by_cases h1 : contentYield attrs = ""
  · by_cases h2 : urlYield p attrs "href" = ""
    · by_cases h3 : urlYield p attrs "src" = "" <;> simp [h1, h2, h3]
    · simp [h1, h2]
  · simp [h1]

theorem contribution_leaf {U : Type} (p : Parser U) (attrs : List (String × String))
    (children : List Node) (hleaf : elementChildren children = []) :
    contribution p attrs children = .scalar (leafValue p attrs (nodesText children)) := by
  simp [contribution, hleaf]

/-- C6 (content wins): an element without child elements whose `content` attribute
is non-empty contributes exactly the literal value of that attribute, whatever its
`href`, `src`, text and the base URL are. -/
theorem content_wins {U : Type} (p : Parser U) (tag : String)
    (attrs : List (String × String)) (children : List Node) (item : Item) (content : String)
    (hleaf : elementChildren children = [])
    (hcontent : attr attrs "content" = some content) (hne : content ≠ "") :
    contribution p attrs children = .scalar content ∧
    extractItem p (.element tag attrs children) item
      = accumulate item (fieldName attrs) (.scalar content) := by
  have hy : contentYield attrs = content := by simp [contentYield, hcontent]
  have hv : contribution p attrs children = .scalar content := by
    rw [contribution_leaf p attrs children hleaf, leafValue_eq, hy, if_pos hne]
  exact ⟨hv, by rw [extractItem_element, hv]⟩

/-- C6 at `content="C"` and `href="H"`: the value is `"C"`. -/
theorem content_wins_witness :
    contribution sampleParser [("itemprop", "p"), ("content", "C"), ("href", "H")]
        [.text "some text"] = .scalar "C" ∧
    extractItem sampleParser
        (.element "meta" [("itemprop", "p"), ("content", "C"), ("href", "H")] [.text "some text"]) []
      = accumulate [] (fieldName [("itemprop", "p"), ("content", "C"), ("href", "H")])
          (.scalar "C") :=
  content_wins sampleParser "meta" [("itemprop", "p"), ("content", "C"), ("href", "H")]
    [.text "some text"] [] "C" rfl (by decide) (by decide)

theorem append_ne_empty (a b : String) (h : a ≠ "") : a ++ b ≠ "" := by
  intro he
  apply h
  have hd : (a ++ b).data = [] := by rw [he]
  rw [String.data_append] at hd
  exact String.ext (List.append_eq_nil.mp hd).1

/-- The sample library resolves against an absolute base to a non-empty string. -/
theorem sampleLib_absResolvesNonempty : sampleLib.AbsResolvesNonempty := by
  intro base ref habs
  have hb : base.origin ≠ "" := by simpa [sampleLib] using habs
  simp only [sampleLib]
  split
  · rename_i h
    exact append_ne_empty _ _ h
  · split <;> exact append_ne_empty _ _ hb

/-- C7 (href resolution): for an element without child elements whose `content` is
absent or empty and whose non-empty `href` parses, with an absolute base URL, the
value contributed is the string form of the `href` resolved against the base URL,
whatever `src` and the text are. -/
theorem href_resolution {U : Type} (p : Parser U) (tag : String)
    (attrs : List (String × String)) (children : List Node) (item : Item)
    (href : String) (relURL : U)
    (hleaf : elementChildren children = [])
    (hcontent : attr attrs "content" = none ∨ attr attrs "content" = some "")
    (hhref : attr attrs "href" = some href) (hne : href ≠ "")
    (hparse : p.lib.parse href = some relURL)
    (hlib : p.lib.AbsResolvesNonempty) (habs : p.lib.isAbs p.base = true) :
    contribution p attrs children
      = .scalar (p.lib.string (p.lib.resolveReference p.base relURL)) ∧
    extractItem p (.element tag attrs children) item
      = accumulate item (fieldName attrs)
          (.scalar (p.lib.string (p.lib.resolveReference p.base relURL))) := by
  have hc : contentYield attrs = "" := by
    rcases hcontent with h | h <;> simp [contentYield, h]
  have hu : urlYield p attrs "href" = p.lib.string (p.lib.resolveReference p.base relURL) := by
    simp [urlYield, hhref, hne, resolve, hparse]
  have hv : contribution p attrs children
      = .scalar (p.lib.string (p.lib.resolveReference p.base relURL)) := by
    rw [contribution_leaf p attrs children hleaf, leafValue_eq, hc, hu]
    simp [hlib p.base relURL habs]
  exact ⟨hv, by rw [extractItem_element, hv]⟩

/-- C7 at `href="/x"` with base `http://ex.com/`: the value is `"http://ex.com/x"`. -/
theorem href_resolution_witness :
    sampleLib.string (sampleLib.resolveReference sampleParser.base ⟨"", "/x"⟩)
      = "http://ex.com/x" ∧
    contribution sampleParser [("itemprop", "link"), ("href", "/x"), ("src", "/y")]
        [.text "label"]
      = .scalar (sampleLib.string (sampleLib.resolveReference sampleParser.base ⟨"", "/x"⟩)) :=
  ⟨by decide,
   (href_resolution sampleParser "a" [("itemprop", "link"), ("href", "/x"), ("src", "/y")]
      [.text "label"] [] "/x" ⟨"", "/x"⟩ rfl (Or.inl (by decide)) (by decide) (by decide) rfl
      sampleLib_absResolvesNonempty rfl).1⟩

theorem attr_removeAttr_self (attrs : List (String × String)) (name : String) :
    attr (removeAttr attrs name) name = none := by
  induction attrs with
  | nil => rfl
  | cons kv rest ih =>
    obtain ⟨k, v⟩ := kv
    simp only [removeAttr] at ih ⊢
    rw [List.filter_cons]
    by_cases h : k = name
    · simpa [h] using ih
    · simpa [h, attr] using ih

theorem attr_removeAttr_other (attrs : List (String × String)) (name other : String)
    (hne : other ≠ name) : attr (removeAttr attrs name) other = attr attrs other := by
  induction attrs with
  | nil => rfl
  | cons kv rest ih =>
    obtain ⟨k, v⟩ := kv
    simp only [removeAttr] at ih ⊢
    rw [List.filter_cons]
    by_cases h : k = name
    · subst h
      have hk : ¬ k = other := fun e => hne e.symm
      simpa [attr, hk] using ih
    · by_cases hk : k = other
      · subst hk
        simp [h, attr]
      · simpa [h, attr, hk] using ih

theorem urlYield_of_parse_none {U : Type} (p : Parser U) (attrs : List (String × String))
    (name value : String) (hattr : attr attrs name = some value)
    (hparse : p.lib.parse value = none) : urlYield p attrs name = "" := by
  simp [urlYield, hattr, resolve, hparse]

theorem urlYield_removeAttr_self {U : Type} (p : Parser U) (attrs : List (String × String))
    (name : String) : urlYield p (removeAttr attrs name) name = "" := by
  simp [urlYield, attr_removeAttr_self]

theorem urlYield_removeAttr_other {U : Type} (p : Parser U) (attrs : List (String × String))
    (name other : String) (hne : other ≠ name) :
    urlYield p (removeAttr attrs name) other = urlYield p attrs other := by
  simp [urlYield, attr_removeAttr_other attrs name other hne]

/-- C8 (an unresolvable URL fails open): extraction is a total function, and for an
element without child elements whose `href` (respectively `src`) value does not
parse as a URL the value contributed is the one the same element contributes
without its `href` (respectively `src`) attribute. -/
theorem unresolvable_url_fails_open {U : Type} (p : Parser U)
    (attrs : List (String × String)) (children : List Node)
    (hleaf : elementChildren children = []) :
    (∀ href, attr attrs "href" = some href → p.lib.parse href = none →
      contribution p attrs children = contribution p (removeAttr attrs "href") children) ∧
    (∀ src, attr attrs "src" = some src → p.lib.parse src = none →
      contribution p attrs children = contribution p (removeAttr attrs "src") children) := by
  constructor
  · intro href hattr hparse
    rw [contribution_leaf p attrs children hleaf, contribution_leaf p _ children hleaf,
      leafValue_eq, leafValue_eq]
    have hc : contentYield (removeAttr attrs "href") = contentYield attrs := by
      simp [contentYield, attr_removeAttr_other attrs "href" "content" (by decide)]
    rw [hc, urlYield_removeAttr_self, urlYield_of_parse_none p attrs "href" href hattr hparse,
      urlYield_removeAttr_other p attrs "href" "src" (by decide)]
  · intro src hattr hparse
    rw [contribution_leaf p attrs children hleaf, contribution_leaf p _ children hleaf,
      leafValue_eq, leafValue_eq]
    have hc : contentYield (removeAttr attrs "src") = contentYield attrs := by
      simp [contentYield, attr_removeAttr_other attrs "src" "content" (by decide)]
    rw [hc, urlYield_removeAttr_self, urlYield_of_parse_none p attrs "src" src hattr hparse,
      urlYield_removeAttr_other p attrs "src" "href" (by decide)]

/-- C8 at `href=":bad"` (which does not parse) and `src="/pic"`: the value is the
resolved `src`, as without the `href`. -/
theorem unresolvable_url_fails_open_witness :
    contribution sampleParser [("itemprop", "p"), ("href", ":bad"), ("src", "/pic")] [.text "t"]
      = contribution sampleParser
          (removeAttr [("itemprop", "p"), ("href", ":bad"), ("src", "/pic")] "href") [.text "t"] ∧
    contribution sampleParser [("itemprop", "p"), ("href", ":bad"), ("src", "/pic")] [.text "t"]
      = .scalar "http://ex.com/pic" :=
  ⟨(unresolvable_url_fails_open sampleParser
      [("itemprop", "p"), ("href", ":bad"), ("src", "/pic")] [.text "t"] rfl).1 ":bad"
      (by decide) rfl, rfl⟩

/-- C9 (text fallback): for an element without child elements for which `content`,
`href` and `src` yield no non-empty value, the value contributed is the element's
text passed through `stringMinifier` and then trimmed; it is stored under the field
name as a leaf also when it is the empty string. -/
theorem text_fallback {U : Type} (p : Parser U) (tag : String)
    (attrs : List (String × String)) (children : List Node) (item : Item)
    (hleaf : elementChildren children = [])
    (hcontent : contentYield attrs = "") (hhref : urlYield p attrs "href" = "")
    (hsrc : urlYield p attrs "src" = "") :
    contribution p attrs children
      = .scalar (trimSpace (stringMinifier (nodeText (.element tag attrs children)))) ∧
    gathered (lookup (extractItem p (.element tag attrs children) item) (fieldName attrs))
      = gathered (lookup item (fieldName attrs))
          ++ [.scalar (trimSpace (stringMinifier (nodeText (.element tag attrs children))))] := by
  have hv : contribution p attrs children
      = .scalar (trimSpace (stringMinifier (nodeText (.element tag attrs children)))) := by
    rw [contribution_leaf p attrs children hleaf, leafValue_eq, hcontent, hhref, hsrc]
    simp [nodeText]
  refine ⟨hv, ?_⟩
  rw [extractItem_element, hv]
  exact gathered_accumulate _ _ _ rfl

/-- C9 at the text `"  Hello\n\tWorld  "`, which gives `"Hello World"`. -/
theorem text_fallback_witness :
    trimSpace (stringMinifier (nodeText
      (.element "span" [("itemprop", "greeting"), ("content", "")] [.text "  Hello\n\tWorld  "])))
      = "Hello World" ∧
    contribution sampleParser [("itemprop", "greeting"), ("content", "")]
        [.text "  Hello\n\tWorld  "]
      = .scalar (trimSpace (stringMinifier (nodeText
          (.element "span" [("itemprop", "greeting"), ("content", "")]
            [.text "  Hello\n\tWorld  "])))) :=
  ⟨by decide,
   (text_fallback sampleParser "span" [("itemprop", "greeting"), ("content", "")]
      [.text "  Hello\n\tWorld  "] [] rfl (by decide) (by decide) (by decide)).1⟩

/-! ### `stringMinifier` -/

theorem runs_cons_head (d : Char) (ds : List Char) :
    ∃ run rest, runs (d :: ds) = (d :: run) :: rest := by
  rw [runs]
  split
  · split
    · exact ⟨_, _, rfl⟩
    · exact ⟨_, _, rfl⟩
  · exact ⟨_, _, rfl⟩

theorem runs_cons_cons (c d : Char) (ds run : List Char) (rest : List (List Char))
    (h : runs (d :: ds) = (d :: run) :: rest) :
    runs (c :: d :: ds)
      = if isSpace c = isSpace d then (c :: d :: run) :: rest else [c] :: (d :: run) :: rest := by
  rw [runs, h]

theorem minifySpec_cons_nonspace (c : Char) (cs : List Char) (hc : isSpace c = false) :
    minifySpec (c :: cs) = c :: minifySpec cs := by
  cases cs with
  | nil => simp [minifySpec, runs, collapseRun, hc]
  | cons d ds =>
    obtain ⟨run, rest, hr⟩ := runs_cons_head d ds
    simp only [minifySpec, runs_cons_cons c d ds run rest hr, hr]
    by_cases hd : isSpace d = true
    · simp [hc, hd, collapseRun]
    · simp only [Bool.not_eq_true] at hd
      simp [hc, hd, collapseRun]

theorem minifySpec_cons_space (c : Char) (cs : List Char) (hc : isSpace c = true) :
    minifySpec (c :: cs) = ' ' :: minifySpec (cs.dropWhile isSpace) := by
  induction cs generalizing c with
  | nil => simp [minifySpec, runs, collapseRun, hc]
  | cons d ds ih =>
    obtain ⟨run, rest, hr⟩ := runs_cons_head d ds
    by_cases hd : isSpace d = true
    · have h1 : minifySpec (c :: d :: ds) = minifySpec (d :: ds) := by
        simp [minifySpec, runs_cons_cons c d ds run rest hr, hr, hc, hd, collapseRun]
      rw [h1, ih d hd]
      simp [List.dropWhile, hd]
    · simp only [Bool.not_eq_true] at hd
      have h1 : minifySpec (c :: d :: ds) = ' ' :: minifySpec (d :: ds) := by
        simp [minifySpec, runs_cons_cons c d ds run rest hr, hr, hc, hd, collapseRun]
      rw [h1]
      simp [List.dropWhile, hd]

/-- The loop of `stringMinifier` against the specification, in both states of the
`white` flag. -/
theorem minifyLoop_eq (cs : List Char) :
    minifyLoop false cs = minifySpec cs ∧
    minifyLoop true cs = minifySpec (cs.dropWhile isSpace) := by
  induction cs with
  | nil => simp [minifyLoop, minifySpec, runs]
  | cons c cs ih =>
    by_cases hc : isSpace c = true
    · constructor
      · rw [minifySpec_cons_space c cs hc]
        simp [minifyLoop, hc, ih.2]
      · simp [minifyLoop, hc, ih.2, List.dropWhile]
    · simp only [Bool.not_eq_true] at hc
      constructor
      · rw [minifySpec_cons_nonspace c cs hc]
        simp [minifyLoop, hc, ih.1]
      · simp only [List.dropWhile, hc]
        rw [minifySpec_cons_nonspace c cs hc]
        simp [minifyLoop, hc, ih.1]

/-- What the loop leaves at the end of an input that ends in white space. -/
theorem minifyLoop_trailing (c : Char) (hc : isSpace c = true) (cs : List Char) :
    ∀ white, (∃ out, minifyLoop white (cs ++ [c]) = out ++ [' ']) ∨
      (white = true ∧ minifyLoop white (cs ++ [c]) = []) := by
  induction cs with
  | nil =>
    intro white
    cases white
    · exact Or.inl ⟨[], by simp [minifyLoop, hc]⟩
    · exact Or.inr ⟨rfl, by simp [minifyLoop, hc]⟩
  | cons d ds ih =>
    intro white
    by_cases hd : isSpace d = true
    · rcases ih true with ⟨out, ho⟩ | ⟨_, ho⟩
      · cases white
        · exact Or.inl ⟨' ' :: out, by simp [minifyLoop, hd, ho]⟩
        · exact Or.inl ⟨out, by simp [minifyLoop, hd, ho]⟩
      · cases white
        · exact Or.inl ⟨[], by simp [minifyLoop, hd, ho]⟩
        · exact Or.inr ⟨rfl, by simp [minifyLoop, hd, ho]⟩
    · simp only [Bool.not_eq_true] at hd
      rcases ih false with ⟨out, ho⟩ | ⟨hw, _⟩
      · exact Or.inl ⟨d :: out, by simp [minifyLoop, hd, ho]⟩
      · exact absurd hw (by decide)

/-- The runs of `runs` are a decomposition of the input into maximal runs: put
together they give the input back, no run is empty, the characters of a run are
all white space or all not, and neighbouring runs are of different kinds. -/
theorem runs_decomposition (cs : List Char) :
    (runs cs).flatten = cs ∧
    (∀ r ∈ runs cs, r ≠ [] ∧ ∀ a ∈ r, ∀ b ∈ r, isSpace a = isSpace b) ∧
    List.Chain' (fun r s => ∀ a ∈ r, ∀ b ∈ s, isSpace a ≠ isSpace b) (runs cs) := by
  induction cs with
  | nil => simp [runs]
  | cons c cs ih =>
    cases cs with
    | nil => simp [runs]
    | cons d ds =>
      obtain ⟨run, rest, hr⟩ := runs_cons_head d ds
      rw [hr] at ih
      obtain ⟨hflat, huni, hchain⟩ := ih
      have hrun := (huni (d :: run) (by simp)).2
      rw [runs_cons_cons c d ds run rest hr]
      by_cases hcd : isSpace c = isSpace d
      · rw [if_pos hcd]
        refine ⟨?_, ?_, ?_⟩
        · simp only [List.flatten_cons, List.cons_append] at hflat ⊢
          rw [hflat]
        · intro r hr'
          rcases List.mem_cons.mp hr' with h | h
          · subst h
            refine ⟨by simp, ?_⟩
            have key : ∀ a ∈ c :: d :: run, isSpace a = isSpace d := by
              intro a ha
              rcases List.mem_cons.mp ha with h | h
              · rw [h, hcd]
              · exact hrun a h d (by simp)
            intro a ha b hb
            rw [key a ha, key b hb]
          · exact huni r (List.mem_cons_of_mem _ h)
        · cases rest with
          | nil => exact List.chain'_singleton _
          | cons s rest' =>
            rw [List.chain'_cons] at hchain ⊢
            refine ⟨?_, hchain.2⟩
            intro a ha b hb
            rcases List.mem_cons.mp ha with h | h
            · rw [h, hcd]
              exact hchain.1 d (by simp) b hb
            · exact hchain.1 a h b hb
      · rw [if_neg hcd]
        refine ⟨?_, ?_, ?_⟩
        · simp only [List.flatten_cons, List.cons_append, List.nil_append, List.singleton_append]
            at hflat ⊢
          rw [hflat]
        · intro r hr'
          rcases List.mem_cons.mp hr' with h | h
          · subst h
            refine ⟨by simp, ?_⟩
            intro a ha b hb
            simp only [List.mem_singleton] at ha hb
            rw [ha, hb]
          · exact huni r h
        · rw [List.chain'_cons]
          refine ⟨?_, hchain⟩
          intro a ha b hb
          simp only [List.mem_singleton] at ha
          rw [ha, hrun b hb d (by simp)]
          exact hcd

/-- C10: `stringMinifier` replaces every maximal run of white space characters by
exactly one ASCII space and keeps every other character, in order (`minifySpec`
over the run decomposition `runs`); a leading and a trailing run of white space is
collapsed to one space and not removed. -/
theorem stringMinifier_spec (s : String) :
    (stringMinifier s).data = minifySpec s.data ∧
    (∀ c cs, s.data = c :: cs → isSpace c = true →
      ∃ out, (stringMinifier s).data = ' ' :: out) ∧
    (∀ c cs, s.data = cs ++ [c] → isSpace c = true →
      ∃ out, (stringMinifier s).data = out ++ [' ']) := by
  refine ⟨(minifyLoop_eq s.data).1, ?_, ?_⟩
  · intro c cs hs hc
    exact ⟨minifyLoop true cs, by simp [stringMinifier, hs, minifyLoop, hc]⟩
  · intro c cs hs hc
    rcases minifyLoop_trailing c hc cs false with ⟨out, ho⟩ | ⟨hw, _⟩
    · exact ⟨out, by simp [stringMinifier, hs, ho]⟩
    · exact absurd hw (by decide)

/-! ### The PropertyValue invariant -/

theorem fieldsWellFormed_store (item : Item) (k : String) (v : Value)
    (hitem : fieldsWellFormed item = true) (hv : v.wellFormed = true) :
    fieldsWellFormed (store item k v) = true := by
  induction item with
  | nil => simp [store, fieldsWellFormed, hv]
  | cons kv rest ih =>
    obtain ⟨k0, v0⟩ := kv
    simp only [fieldsWellFormed, Bool.and_eq_true] at hitem
    by_cases h : k0 = k
    · simp [store, h, fieldsWellFormed, hv, hitem.2]
    · simp [store, h, fieldsWellFormed, hitem.1, ih hitem.2]

theorem wellFormed_of_lookup (item : Item) (k : String) (v : Value)
    (hitem : fieldsWellFormed item = true) (hlook : lookup item k = some v) :
    v.wellFormed = true := by
  induction item with
  | nil => simp [lookup] at hlook
  | cons kv rest ih =>
    obtain ⟨k0, v0⟩ := kv
    simp only [fieldsWellFormed, Bool.and_eq_true] at hitem
    by_cases h : k0 = k
    · simp only [lookup, h, if_true, Option.some.injEq] at hlook
      rw [← hlook]
      exact hitem.1
    · simp only [lookup, h, if_false] at hlook
      exact ih hitem.2 hlook

theorem elemsWellFormed_append (xs ys : List Value) :
    elemsWellFormed (xs ++ ys) = (elemsWellFormed xs && elemsWellFormed ys) := by
  induction xs with
  | nil => simp [elemsWellFormed]
  | cons x xs ih => simp [elemsWellFormed, ih, Bool.and_assoc]

theorem fieldsWellFormed_accumulate (item : Item) (k : String) (v : Value)
    (hitem : fieldsWellFormed item = true) (hv : v.wellFormed = true)
    (hna : v.isArray = false) : fieldsWellFormed (accumulate item k v) = true := by
  unfold accumulate
  cases hlook : lookup item k with
  | none => exact fieldsWellFormed_store item k v hitem hv
  | some cur =>
    have hcur := wellFormed_of_lookup item k cur hitem hlook
    cases cur with
    | scalar s =>
      have h1 : (Value.scalar s).isArray = false := rfl
      exact fieldsWellFormed_store item k _ hitem
        (by simp [Value.wellFormed, elemsWellFormed, h1, hv, hna])
    | nested f =>
      have h1 : (Value.nested f).isArray = false := rfl
      have h2 : fieldsWellFormed f = true := by simpa [Value.wellFormed] using hcur
      exact fieldsWellFormed_store item k _ hitem
        (by simp [Value.wellFormed, elemsWellFormed, h1, h2, hv, hna])
    | array arr =>
      simp only [Value.wellFormed, Bool.and_eq_true, decide_eq_true_eq] at hcur
      refine fieldsWellFormed_store item k _ hitem ?_
      simp only [Value.wellFormed, Bool.and_eq_true, decide_eq_true_eq, List.length_append,
        List.length_singleton, elemsWellFormed_append]
      refine ⟨by omega, hcur.2, ?_⟩
      simp [elemsWellFormed, hv, hna]

theorem fieldsWellFormed_initialItem {U : Type} (p : Parser U)
    (attrs : List (String × String)) : fieldsWellFormed (initialItem p attrs) = true := by
  unfold initialItem
  split
  · split
    · split <;> rfl
    · rfl
  · rfl

mutual
/-- One extraction keeps the destination well formed. -/
theorem fieldsWellFormed_extractItem {U : Type} (p : Parser U) :
    ∀ (n : Node) (item : Item), fieldsWellFormed item = true →
      fieldsWellFormed (extractItem p n item) = true
  | .text _, item, h => by rw [extractItem]; exact h
  | .element tag attrs children, item, h => by
    rw [extractItem_element]
    refine fieldsWellFormed_accumulate item _ _ h ?_ (contribution_isArray p attrs children)
    unfold contribution
    split
    · simp only [Value.wellFormed]
      exact fieldsWellFormed_extractEach p children _ (fieldsWellFormed_initialItem p attrs)
    · rfl
/-- Extraction of a sequence of siblings keeps the destination well formed. -/
theorem fieldsWellFormed_extractEach {U : Type} (p : Parser U) :
    ∀ (ns : List Node) (item : Item), fieldsWellFormed item = true →
      fieldsWellFormed (extractEach p ns item) = true
  | [], item, h => by rw [extractEach]; exact h
  | c :: cs, item, h => by
    rw [extractEach]
    exact fieldsWellFormed_extractEach p cs _ (fieldsWellFormed_extractItem p c item h)
end

theorem childValues_isArray {U : Type} (p : Parser U) (nodes : List Node) (key : String) :
    ∀ v ∈ childValues p nodes key, v.isArray = false := by
  intro v hv
  simp only [childValues, List.mem_filterMap] at hv
  obtain ⟨n, -, hn⟩ := hv
  cases n with
  | text d => simp [nodeContribution] at hn
  | element tag attrs children =>
    simp only [nodeContribution] at hn
    split at hn
    · simp only [Option.some.injEq] at hn
      rw [← hn]
      exact contribution_isArray p attrs children
    · simp at hn

theorem childValues_cons_text {U : Type} (p : Parser U) (d : String) (cs : List Node)
    (key : String) : childValues p (.text d :: cs) key = childValues p cs key := by
  simp [childValues, nodeContribution]

theorem childValues_cons_element {U : Type} (p : Parser U) (tag : String)
    (attrs : List (String × String)) (children cs : List Node) (key : String) :
    childValues p (.element tag attrs children :: cs) key
      = (if fieldName attrs = key then [contribution p attrs children] else [])
          ++ childValues p cs key := by
  by_cases h : fieldName attrs = key <;> simp [childValues, nodeContribution, h]

/-- What a key holds after the extraction of a sequence of siblings: the packed
form of the values it held followed by the values the siblings contribute to it. -/
theorem lookup_extractEach {U : Type} (p : Parser U) (key : String) (nodes : List Node) :
    ∀ (item : Item) (ws : List Value), (∀ w ∈ ws, w.isArray = false) →
      lookup item key = pack ws →
      lookup (extractEach p nodes item) key = pack (ws ++ childValues p nodes key) := by
  induction nodes with
  | nil => intro item ws _ h; simpa [extractEach, childValues] using h
  | cons c cs ih =>
    intro item ws hws h
    rw [extractEach]
    cases c with
    | text d =>
      rw [childValues_cons_text, extractItem]
      exact ih item ws hws h
    | element tag attrs children =>
      rw [childValues_cons_element, extractItem_element]
      by_cases hk : fieldName attrs = key
      · have hv := contribution_isArray p attrs children
        have step := lookup_accumulate_pack item key ws (contribution p attrs children) hws h
        have hws' : ∀ w ∈ ws ++ [contribution p attrs children], w.isArray = false := by
          intro w hw
          rcases List.mem_append.mp hw with hw | hw
          · exact hws w hw
          · simp only [List.mem_singleton] at hw
            rw [hw]; exact hv
        have := ih (accumulate item key (contribution p attrs children)) _ hws' step
        rw [hk]
        simpa [List.append_assoc] using this
      · have := ih (accumulate item (fieldName attrs) (contribution p attrs children)) ws hws
          (by rw [lookup_accumulate_other _ _ _ _ hk]; exact h)
        simpa [hk] using this

theorem pack_array_iff (vs : List Value) (h : ∀ v ∈ vs, v.isArray = false) :
    (∃ elems, pack vs = some (.array elems)) ↔ 2 ≤ vs.length := by
  match vs, h with
  | [], _ => simp [pack]
  | [v], h =>
    have hv := h v (by simp)
    cases v <;> simp_all [pack, Value.isArray]
  | _ :: _ :: _, _ => simp [pack]

theorem lookup_initialItem {U : Type} (p : Parser U) (attrs : List (String × String))
    (key : String) : lookup (initialItem p attrs) key = pack (hrefValues p attrs key) := by
  unfold initialItem hrefValues
  by_cases hk : key = "url"
  · subst hk
    cases attr attrs "href" with
    | none => simp [lookup, pack]
    | some href =>
      by_cases hh : href = ""
      · simp [hh, lookup, pack]
      · cases hr : resolve p href with
        | none => simp [hh, hr, lookup, pack]
        | some url => simp [hh, hr, lookup, store, pack]
  · have hk' : ¬ "url" = key := fun e => hk e.symm
    cases attr attrs "href" with
    | none => simp [hk, lookup, pack]
    | some href =>
      by_cases hh : href = ""
      · simp [hk, hh, lookup, pack]
      · cases hr : resolve p href with
        | none => simp [hk, hh, hr, lookup, pack]
        | some url => simp [hk, hk', hh, hr, lookup, store, pack]

theorem hrefValues_isArray {U : Type} (p : Parser U) (attrs : List (String × String))
    (key : String) : ∀ v ∈ hrefValues p attrs key, v.isArray = false := by
  intro v hv
  unfold hrefValues at hv
  split at hv
  · split at hv
    · split at hv
      · split at hv
        · simp only [List.mem_singleton] at hv
          rw [hv]; rfl
        · simp at hv
      · simp at hv
    · simp at hv
  · simp at hv

/-- What a key of the nested Item of an element holds: the packed form of the
element's own `url` value followed by the values of its child elements. -/
theorem lookup_nestedItem {U : Type} (p : Parser U) (attrs : List (String × String))
    (children : List Node) (key : String) :
    lookup (extractEach p children (initialItem p attrs)) key
      = pack (hrefValues p attrs key ++ childValues p children key) :=
  lookup_extractEach p key children _ _ (hrefValues_isArray p attrs key)
    (lookup_initialItem p attrs key)

/-- What a key of the root Item holds: the packed form of the values of the
top-level elements. -/
theorem lookup_extractDocument {U : Type} (p : Parser U) (roots : List Node) (key : String) :
    lookup (extractDocument p roots) key = pack (childValues p roots key) := by
  have := lookup_extractEach p key roots [] [] (by simp) (by simp [lookup, pack])
  simpa [extractDocument] using this

/-- C2 (PropertyValue invariant over the whole result), for every tree handed to
the extraction and so for every pruned tree: in the root Item, and in the nested
Item of every element, a key holds an Array exactly when at least two values were
contributed to it (the values of the child elements of that field name, and for
`"url"` the element's own resolved `href`); and at every depth of the result an
Array has at least two elements, none of which is an Array. -/
theorem propertyValue_invariant {U : Type} (p : Parser U) :
    (∀ (roots : List Node) (key : String),
      (∃ elems, lookup (extractDocument p roots) key = some (.array elems))
        ↔ 2 ≤ (childValues p roots key).length) ∧
    (∀ (attrs : List (String × String)) (children : List Node) (nested : Item),
      contribution p attrs children = .nested nested →
      ∀ key : String, (∃ elems, lookup nested key = some (.array elems))
        ↔ 2 ≤ (hrefValues p attrs key ++ childValues p children key).length) ∧
    (∀ roots : List Node, fieldsWellFormed (extractDocument p roots) = true) := by
  refine ⟨?_, ?_, ?_⟩
  · intro roots key
    rw [lookup_extractDocument]
    exact pack_array_iff _ (childValues_isArray p roots key)
  · intro attrs children nested hn key
    have hnested : nested = extractEach p children (initialItem p attrs) := by
      unfold contribution at hn
      split at hn
      · simp only [Value.nested.injEq] at hn
        exact hn.symm
      · simp at hn
    rw [hnested, lookup_nestedItem]
    refine pack_array_iff _ ?_
    intro v hv
    rcases List.mem_append.mp hv with h | h
    · exact hrefValues_isArray p attrs key v h
    · exact childValues_isArray p children key v h
  · intro roots
    exact fieldsWellFormed_extractEach p roots [] rfl

/-! ### Concrete documents -/

/-- C3 at `itemprop="author"` next to an `itemtype`, and at an empty `itemprop`
next to an `itemtype`. -/
theorem fieldName_itemprop_witness :
    (fieldName [("itemtype", "http://schema.org/Person"), ("itemprop", "author")] = "author" ∧
      extractItem sampleParser
          (.element "div" [("itemtype", "http://schema.org/Person"), ("itemprop", "author")]
            [.text "Jo"]) []
        = accumulate [] "author"
            (contribution sampleParser
              [("itemtype", "http://schema.org/Person"), ("itemprop", "author")] [.text "Jo"])) ∧
    fieldName [("itemprop", ""), ("itemtype", "http://schema.org/Person")] = "" :=
  ⟨fieldName_itemprop sampleParser "div"
      [("itemtype", "http://schema.org/Person"), ("itemprop", "author")] [.text "Jo"] []
      "author" (by decide),
   (fieldName_itemprop sampleParser "div"
      [("itemprop", ""), ("itemtype", "http://schema.org/Person")] [] [] "" (by decide)).1⟩

/-- C5 at `<span>Jo</span>` and at `<div href="/bio"><span itemprop="name">Jo</span></div>`,
extracted into an item that already holds a value under the empty key. -/
theorem missing_name_empty_key_witness :
    extractItem sampleParser (.element "span" [("class", "x")] [.text "Jo"])
        [("", .scalar "first")]
      = [("", .array [.scalar "first", .scalar "Jo"])] ∧
    (extractItem sampleParser (.element "div" [("href", "/bio")]
        [.element "span" [("itemprop", "name")] [.text "Jo"]]) []
      = accumulate [] ""
          (contribution sampleParser [("href", "/bio")]
            [.element "span" [("itemprop", "name")] [.text "Jo"]])) ∧
    extractItem sampleParser (.element "div" [("href", "/bio")]
        [.element "span" [("itemprop", "name")] [.text "Jo"]]) []
      = [("", .nested [("url", .scalar "http://ex.com/bio"), ("name", .scalar "Jo")])] :=
  ⟨rfl,
   (missing_name_empty_key sampleParser "div" [("href", "/bio")]
      [.element "span" [("itemprop", "name")] [.text "Jo"]] [] (by decide) (by decide)).2.1,
   rfl⟩

/-- C2 on a concrete document: a nested item whose `"url"` gets a second value from
a child, next to two top-level elements of the same field name. -/
theorem propertyValue_invariant_witness :
    extractDocument sampleParser
        [.element "div" [("itemscope", ""), ("itemprop", "author"), ("href", "/bio")]
          [.element "a" [("itemprop", "url"), ("href", "/home")] [.text "home"],
           .element "span" [("itemprop", "name")] [.text "Jo"]],
         .element "span" [("itemprop", "tag")] [.text "a"],
         .text " ",
         .element "span" [("itemprop", "tag")] [.text "b"]]
      = [("author", .nested
            [("url", .array [.scalar "http://ex.com/bio", .scalar "http://ex.com/home"]),
             ("name", .scalar "Jo")]),
         ("tag", .array [.scalar "a", .scalar "b"])] ∧
    fieldsWellFormed (extractDocument sampleParser
        [.element "div" [("itemscope", ""), ("itemprop", "author"), ("href", "/bio")]
          [.element "a" [("itemprop", "url"), ("href", "/home")] [.text "home"],
           .element "span" [("itemprop", "name")] [.text "Jo"]],
         .element "span" [("itemprop", "tag")] [.text "a"],
         .text " ",
         .element "span" [("itemprop", "tag")] [.text "b"]]) = true :=
  ⟨rfl, (propertyValue_invariant sampleParser).2.2 _⟩

/-- C10 at `"  Hello\n\tWorld  "`: the inner run becomes one space, the leading and
the trailing run stay as one space each. -/
theorem stringMinifier_spec_witness :
    stringMinifier "  Hello\n\tWorld  " = " Hello World " ∧
    (stringMinifier "  Hello\n\tWorld  ").data = minifySpec ("  Hello\n\tWorld  " : String).data :=
  ⟨by decide, (stringMinifier_spec "  Hello\n\tWorld  ").1⟩

/-! ### The two branches, the frame and the `"url"` key -/

/-- C11 (scalar-versus-nested branch): whatever its attributes and text are, an
element with at least one child element contributes a nested Item (filled from
its child elements), and an element without child elements contributes a scalar
string; text nodes are not child elements, so an element whose children are all
text nodes is a leaf. -/
theorem scalar_or_nested {U : Type} (p : Parser U) (tag : String)
    (attrs : List (String × String)) (children : List Node) (item : Item) :
    (0 < (elementChildren children).length →
      contribution p attrs children
        = .nested (extractEach p (elementChildren children) (initialItem p attrs))) ∧
    (elementChildren children = [] →
      contribution p attrs children = .scalar (leafValue p attrs (nodesText children))) ∧
    ((∀ c ∈ children, c.isElement = false) → elementChildren children = []) ∧
    extractItem p (.element tag attrs children) item
      = accumulate item (fieldName attrs) (contribution p attrs children) := by
  refine ⟨?_, contribution_leaf p attrs children, ?_, extractItem_element p tag attrs children item⟩
  · intro h
    rw [← extractEach_elementChildren]
    simp [contribution, h]
  · intro h
    simp only [elementChildren, List.filter_eq_nil_iff]
    intro c hc
    simp [h c hc]

/-- C11 on two elements: one with `content`, `src`, text and a child element, which
gives a nested Item, and one with `itemscope` and text only, which gives a
scalar. -/
theorem scalar_or_nested_witness :
    contribution sampleParser [("itemprop", "a"), ("content", "C"), ("src", "/s")]
        [.text "t", .element "span" [("itemprop", "b")] [.text "x"]]
      = .nested [("b", .scalar "x")] ∧
    contribution sampleParser [("itemscope", ""), ("itemprop", "a")] [.text "t"]
      = .scalar "t" ∧
    contribution sampleParser [("itemscope", ""), ("itemprop", "a")] [.text "t"]
      = .scalar (leafValue sampleParser [("itemscope", ""), ("itemprop", "a")]
          (nodesText [.text "t"])) :=
  ⟨rfl, rfl,
   (scalar_or_nested sampleParser "div" [("itemscope", ""), ("itemprop", "a")] [.text "t"]
      []).2.1 rfl⟩

/-- C19 (frame of one extraction): `extractItem` leaves every key of the
destination other than the element's field name as it was, and under the field
name it keeps the values gathered so far, in their order, and adds the one value
the element contributes after them. -/
theorem extractItem_frame {U : Type} (p : Parser U) (tag : String)
    (attrs : List (String × String)) (children : List Node) (item : Item) :
    (∀ key, key ≠ fieldName attrs →
      lookup (extractItem p (.element tag attrs children) item) key = lookup item key) ∧
    gathered (lookup (extractItem p (.element tag attrs children) item) (fieldName attrs))
      = gathered (lookup item (fieldName attrs)) ++ [contribution p attrs children] := by
  rw [extractItem_element]
  exact ⟨fun key hk => lookup_accumulate_other _ _ _ _ (Ne.symm hk),
    gathered_accumulate _ _ _ (contribution_isArray p attrs children)⟩

/-- C19 on an item that holds two values under `"tag"` and one under `"name"`. -/
theorem extractItem_frame_witness :
    extractItem sampleParser (.element "span" [("itemprop", "tag")] [.text "c"])
        [("name", .scalar "n"), ("tag", .array [.scalar "a", .scalar "b"])]
      = [("name", .scalar "n"), ("tag", .array [.scalar "a", .scalar "b", .scalar "c"])] ∧
    gathered (lookup (extractItem sampleParser
        (.element "span" [("itemprop", "tag")] [.text "c"])
        [("name", .scalar "n"), ("tag", .array [.scalar "a", .scalar "b"])])
        (fieldName [("itemprop", "tag")]))
      = gathered (lookup [("name", .scalar "n"), ("tag", .array [.scalar "a", .scalar "b"])]
          (fieldName [("itemprop", "tag")]))
        ++ [contribution sampleParser [("itemprop", "tag")] [.text "c"]] :=
  ⟨rfl, (extractItem_frame sampleParser "span" [("itemprop", "tag")] [.text "c"]
      [("name", .scalar "n"), ("tag", .array [.scalar "a", .scalar "b"])]).2⟩

theorem gathered_pack (vs : List Value) (h : ∀ x ∈ vs, x.isArray = false) :
    gathered (pack vs) = vs := by
  match vs, h with
  | [], _ => rfl
  | [v], h =>
    have hv := h v (by simp)
    cases v <;> simp_all [pack, gathered, Value.isArray]
  | _ :: _ :: _, _ => rfl

theorem hrefValues_of_parse {U : Type} (p : Parser U) (attrs : List (String × String))
    (href : String) (relURL : U) (hhref : attr attrs "href" = some href) (hne : href ≠ "")
    (hparse : p.lib.parse href = some relURL) :
    hrefValues p attrs "url"
      = [.scalar (p.lib.string (p.lib.resolveReference p.base relURL))] := by
  simp [hrefValues, hhref, hne, resolve, hparse]

theorem hrefValues_of_no_href {U : Type} (p : Parser U) (attrs : List (String × String))
    (key : String)
    (h : attr attrs "href" = none ∨ attr attrs "href" = some "" ∨
      ∃ href, attr attrs "href" = some href ∧ p.lib.parse href = none) :
    hrefValues p attrs key = [] := by
  unfold hrefValues
  rcases h with h | h | ⟨href, h, hp⟩
  · simp [h]
  · simp [h]
  · by_cases hne : href = ""
    · simp [h, hne]
    · simp [h, hne, resolve, hp]

theorem hrefValues_of_ne_url {U : Type} (p : Parser U) (attrs : List (String × String))
    (key : String) (h : key ≠ "url") : hrefValues p attrs key = [] := by
  simp [hrefValues, h]

theorem childValues_ne_nil_of_mem {U : Type} (p : Parser U) (nodes : List Node) (key : String)
    (tag : String) (attrs : List (String × String)) (children : List Node)
    (hmem : Node.element tag attrs children ∈ nodes) (hkey : fieldName attrs = key) :
    childValues p nodes key ≠ [] := by
  intro hnil
  have : contribution p attrs children ∈ childValues p nodes key := by
    simp only [childValues, List.mem_filterMap]
    exact ⟨_, hmem, by simp [nodeContribution, hkey]⟩
  rw [hnil] at this
  simp at this

/-- C20 (the `"url"` key is shared with the children): for an element with child
elements whose non-empty `href` parses and which has a child element of field name
`"url"`, the nested Item holds under `"url"` an Array that starts with the resolved
`href` and goes on with the values of those children in document order. -/
theorem url_shared_with_children {U : Type} (p : Parser U)
    (attrs : List (String × String)) (children : List Node) (href : String) (relURL : U)
    (ctag : String) (cattrs : List (String × String)) (cchildren : List Node)
    (hhref : attr attrs "href" = some href) (hne : href ≠ "")
    (hparse : p.lib.parse href = some relURL)
    (hchild : Node.element ctag cattrs cchildren ∈ children)
    (hname : fieldName cattrs = "url") :
    contribution p attrs children
      = .nested (extractEach p children (initialItem p attrs)) ∧
    lookup (extractEach p children (initialItem p attrs)) "url"
      = some (.array (.scalar (p.lib.string (p.lib.resolveReference p.base relURL))
          :: childValues p children "url")) := by
  constructor
  · have hlen : 0 < (elementChildren children).length := by
      apply List.length_pos_of_mem (a := Node.element ctag cattrs cchildren)
      simp [elementChildren, hchild, Node.isElement]
    simp [contribution, hlen]
  · rw [lookup_nestedItem, hrefValues_of_parse p attrs href relURL hhref hne hparse]
    have hcv := childValues_ne_nil_of_mem p children "url" ctag cattrs cchildren hchild hname
    cases hc : childValues p children "url" with
    | nil => exact absurd hc hcv
    | cons v vs => rfl

/-- C20 at `<div itemprop="author" href="/bio">` with two children of field name
`"url"` around one of another name. -/
theorem url_shared_with_children_witness :
    contribution sampleParser [("itemprop", "author"), ("href", "/bio")]
        [.element "a" [("itemprop", "url"), ("href", "/a")] [.text "one"],
         .element "span" [("itemprop", "name")] [.text "Jo"],
         .element "a" [("itemprop", "url"), ("href", "/b")] [.text "two"]]
      = .nested [("url", .array [.scalar "http://ex.com/bio", .scalar "http://ex.com/a",
                    .scalar "http://ex.com/b"]),
                 ("name", .scalar "Jo")] ∧
    lookup (extractEach sampleParser
        [.element "a" [("itemprop", "url"), ("href", "/a")] [.text "one"],
         .element "span" [("itemprop", "name")] [.text "Jo"],
         .element "a" [("itemprop", "url"), ("href", "/b")] [.text "two"]]
        (initialItem sampleParser [("itemprop", "author"), ("href", "/bio")])) "url"
      = some (.array (.scalar (sampleParser.lib.string
            (sampleParser.lib.resolveReference sampleParser.base ⟨"", "/bio"⟩))
          :: childValues sampleParser
              [.element "a" [("itemprop", "url"), ("href", "/a")] [.text "one"],
               .element "span" [("itemprop", "name")] [.text "Jo"],
               .element "a" [("itemprop", "url"), ("href", "/b")] [.text "two"]] "url")) :=
  ⟨rfl,
   (url_shared_with_children sampleParser [("itemprop", "author"), ("href", "/bio")]
      [.element "a" [("itemprop", "url"), ("href", "/a")] [.text "one"],
       .element "span" [("itemprop", "name")] [.text "Jo"],
       .element "a" [("itemprop", "url"), ("href", "/b")] [.text "two"]]
      "/bio" ⟨"", "/bio"⟩ "a" [("itemprop", "url"), ("href", "/a")] [.text "one"]
      (by decide) (by decide) rfl (by simp) (by decide)).2⟩

/-- C12, as stated, fails where a child element has the field name `"url"`: the
nested Item of `<div itemprop="author" href="/bio"><a itemprop="url" href="/home">home</a></div>`
holds under `"url"` an Array, not the resolved `href`. -/
theorem nested_url_counterexample :
    0 < (elementChildren
      [.element "a" [("itemprop", "url"), ("href", "/home")] [.text "home"]]).length ∧
    attr [("itemprop", "author"), ("href", "/bio")] "href" = some "/bio" ∧
    resolve sampleParser "/bio" = some "http://ex.com/bio" ∧
    contribution sampleParser [("itemprop", "author"), ("href", "/bio")]
        [.element "a" [("itemprop", "url"), ("href", "/home")] [.text "home"]]
      = .nested (extractEach sampleParser
          [.element "a" [("itemprop", "url"), ("href", "/home")] [.text "home"]]
          (initialItem sampleParser [("itemprop", "author"), ("href", "/bio")])) ∧
    lookup (extractEach sampleParser
        [.element "a" [("itemprop", "url"), ("href", "/home")] [.text "home"]]
        (initialItem sampleParser [("itemprop", "author"), ("href", "/bio")])) "url"
      ≠ some (.scalar "http://ex.com/bio") := by
  refine ⟨by decide, by decide, by decide, rfl, ?_⟩
  have h : lookup (extractEach sampleParser
        [.element "a" [("itemprop", "url"), ("href", "/home")] [.text "home"]]
        (initialItem sampleParser [("itemprop", "author"), ("href", "/bio")])) "url"
      = some (.array [.scalar "http://ex.com/bio", .scalar "http://ex.com/home"]) := rfl
  rw [h]
  simp

/-- C12 (amended): for an element with at least one child element, when its `href`
is non-empty and parses, the values under `"url"` of the nested Item start with the
resolved `href`, followed by the values of the child elements of field name
`"url"`; the key holds exactly the resolved `href` when there is no such child.
When `href` is absent, empty or does not parse, the element itself contributes
nothing under `"url"`: the key has the values of those children only. -/
theorem nested_url {U : Type} (p : Parser U)
    (attrs : List (String × String)) (children : List Node)
    (hchildren : 0 < (elementChildren children).length) :
    contribution p attrs children
      = .nested (extractEach p children (initialItem p attrs)) ∧
    (∀ href relURL, attr attrs "href" = some href → href ≠ "" →
      p.lib.parse href = some relURL →
      gathered (lookup (extractEach p children (initialItem p attrs)) "url")
        = .scalar (p.lib.string (p.lib.resolveReference p.base relURL))
            :: childValues p children "url" ∧
      (childValues p children "url" = [] →
        lookup (extractEach p children (initialItem p attrs)) "url"
          = some (.scalar (p.lib.string (p.lib.resolveReference p.base relURL))))) ∧
    ((attr attrs "href" = none ∨ attr attrs "href" = some "" ∨
        ∃ href, attr attrs "href" = some href ∧ p.lib.parse href = none) →
      gathered (lookup (extractEach p children (initialItem p attrs)) "url")
        = childValues p children "url") := by
  have hall : ∀ v ∈ hrefValues p attrs "url" ++ childValues p children "url",
      v.isArray = false := by
    intro v hv
    rcases List.mem_append.mp hv with h | h
    · exact hrefValues_isArray p attrs "url" v h
    · exact childValues_isArray p children "url" v h
  refine ⟨by simp [contribution, hchildren], ?_, ?_⟩
  · intro href relURL hhref hne hparse
    have hv := hrefValues_of_parse p attrs href relURL hhref hne hparse
    constructor
    · rw [lookup_nestedItem, gathered_pack _ hall, hv]
      rfl
    · intro hnil
      rw [lookup_nestedItem, hv, hnil]
      rfl
  · intro h
    rw [lookup_nestedItem, gathered_pack _ hall, hrefValues_of_no_href p attrs "url" h]
    rfl

/-- C12 (amended) at the example of the specification,
`<div itemscope itemprop="author" href="/bio"><span itemprop="name">Jo</span></div>`
with base `http://ex.com/`. -/
theorem nested_url_witness :
    extractDocument sampleParser
        [.element "div" [("itemscope", ""), ("itemprop", "author"), ("href", "/bio")]
          [.element "span" [("itemprop", "name")] [.text "Jo"]]]
      = [("author", .nested [("url", .scalar "http://ex.com/bio"), ("name", .scalar "Jo")])] ∧
    contribution sampleParser [("itemscope", ""), ("itemprop", "author"), ("href", "/bio")]
        [.element "span" [("itemprop", "name")] [.text "Jo"]]
      = .nested (extractEach sampleParser [.element "span" [("itemprop", "name")] [.text "Jo"]]
          (initialItem sampleParser
            [("itemscope", ""), ("itemprop", "author"), ("href", "/bio")])) :=
  ⟨rfl,
   (nested_url sampleParser [("itemscope", ""), ("itemprop", "author"), ("href", "/bio")]
      [.element "span" [("itemprop", "name")] [.text "Jo"]] (by decide)).1⟩

/-- C13, as stated, fails under the key `"url"` of a nested element whose own `href`
resolves: `<div itemprop="author" href="/bio">` with two children of field name
`"url"` holds under `"url"` an Array of three elements, the first of which is not
the value of a child. -/
theorem multi_value_promotion_counterexample :
    childValues sampleParser
        [.element "a" [("itemprop", "url"), ("href", "/a")] [.text "one"],
         .element "a" [("itemprop", "url"), ("href", "/b")] [.text "two"]] "url"
      = [.scalar "http://ex.com/a", .scalar "http://ex.com/b"] ∧
    lookup (extractEach sampleParser
        [.element "a" [("itemprop", "url"), ("href", "/a")] [.text "one"],
         .element "a" [("itemprop", "url"), ("href", "/b")] [.text "two"]]
        (initialItem sampleParser [("itemprop", "author"), ("href", "/bio")])) "url"
      = some (.array [.scalar "http://ex.com/bio", .scalar "http://ex.com/a",
          .scalar "http://ex.com/b"]) ∧
    lookup (extractEach sampleParser
        [.element "a" [("itemprop", "url"), ("href", "/a")] [.text "one"],
         .element "a" [("itemprop", "url"), ("href", "/b")] [.text "two"]]
        (initialItem sampleParser [("itemprop", "author"), ("href", "/bio")])) "url"
      ≠ some (.array [.scalar "http://ex.com/a", .scalar "http://ex.com/b"]) := by
  refine ⟨rfl, rfl, ?_⟩
  have h : lookup (extractEach sampleParser
        [.element "a" [("itemprop", "url"), ("href", "/a")] [.text "one"],
         .element "a" [("itemprop", "url"), ("href", "/b")] [.text "two"]]
        (initialItem sampleParser [("itemprop", "author"), ("href", "/bio")])) "url"
      = some (.array [.scalar "http://ex.com/bio", .scalar "http://ex.com/a",
          .scalar "http://ex.com/b"]) := rfl
  rw [h]
  simp

theorem pack_of_two_le (vs : List Value) (h : 2 ≤ vs.length) : pack vs = some (.array vs) := by
  match vs, h with
  | _ :: _ :: _, _ => rfl

/-- C13 (amended): a parent with `k >= 2` child elements of one field name holds
under that key an Array of the values of these children in document order. For
the document root, and for a nested element under every key to which the element
itself contributes nothing, the Array has exactly these `k` elements; under the
key `"url"` of a nested element whose non-empty `href` parses, the Array has
`k + 1` elements, the resolved `href` first and the values of the children after
it. -/
theorem multi_value_promotion {U : Type} (p : Parser U) (key : String) (nodes : List Node)
    (hk : 2 ≤ (childValues p nodes key).length) :
    lookup (extractDocument p nodes) key = some (.array (childValues p nodes key)) ∧
    (∀ attrs : List (String × String),
      lookup (extractEach p nodes (initialItem p attrs)) key
        = some (.array (hrefValues p attrs key ++ childValues p nodes key)) ∧
      ((key ≠ "url" ∨ attr attrs "href" = none ∨ attr attrs "href" = some "" ∨
          ∃ href, attr attrs "href" = some href ∧ p.lib.parse href = none) →
        lookup (extractEach p nodes (initialItem p attrs)) key
          = some (.array (childValues p nodes key))) ∧
      (∀ href relURL, key = "url" → attr attrs "href" = some href → href ≠ "" →
        p.lib.parse href = some relURL →
        lookup (extractEach p nodes (initialItem p attrs)) key
          = some (.array (.scalar (p.lib.string (p.lib.resolveReference p.base relURL))
              :: childValues p nodes key)))) := by
  constructor
  · rw [lookup_extractDocument, pack_of_two_le _ hk]
  · intro attrs
    have hmain : lookup (extractEach p nodes (initialItem p attrs)) key
        = some (.array (hrefValues p attrs key ++ childValues p nodes key)) := by
      rw [lookup_nestedItem, pack_of_two_le]
      rw [List.length_append]
      omega
    refine ⟨hmain, ?_, ?_⟩
    · intro h
      have hnil : hrefValues p attrs key = [] := by
        rcases h with h | h
        · exact hrefValues_of_ne_url p attrs key h
        · exact hrefValues_of_no_href p attrs key h
      rw [hmain, hnil, List.nil_append]
    · intro href relURL hkey hhref hne hparse
      subst hkey
      rw [hmain, hrefValues_of_parse p attrs href relURL hhref hne hparse]
      rfl

/-- C13 (amended) at two siblings `itemprop="tag"` with the texts `"a"` and `"b"`,
which give `("tag", ["a", "b"])`. -/
theorem multi_value_promotion_witness :
    extractDocument sampleParser
        [.element "span" [("itemprop", "tag")] [.text "a"],
         .element "span" [("itemprop", "tag")] [.text "b"]]
      = [("tag", .array [.scalar "a", .scalar "b"])] ∧
    lookup (extractDocument sampleParser
        [.element "span" [("itemprop", "tag")] [.text "a"],
         .element "span" [("itemprop", "tag")] [.text "b"]]) "tag"
      = some (.array (childValues sampleParser
          [.element "span" [("itemprop", "tag")] [.text "a"],
           .element "span" [("itemprop", "tag")] [.text "b"]] "tag")) :=
  ⟨rfl,
   (multi_value_promotion sampleParser "tag"
      [.element "span" [("itemprop", "tag")] [.text "a"],
       .element "span" [("itemprop", "tag")] [.text "b"]] (by decide)).1⟩

/-! ### The pruning pass -/

theorem find_append (sel : List (String × String) → Bool) (xs ys : List Node) :
    find sel (xs ++ ys) = find sel xs ++ find sel ys := by
  induction xs with
  | nil => simp [find]
  | cons x xs ih => simp [find, ih, List.append_assoc]

theorem find_singleton (sel : List (String × String) → Bool) (n : Node) :
    find sel [n] = findNode sel n := by
  simp [find]

theorem findNode_notBearing_of_bearing (tag : String) (attrs : List (String × String))
    (children : List Node) (hb : bearing attrs = true) :
    findNode notBearing (.element tag attrs children) = find notBearing children := by
  simp [findNode, notBearing, hb]

theorem findNode_notBearing_of_not (tag : String) (attrs : List (String × String))
    (children : List Node) (hb : bearing attrs = false) :
    findNode notBearing (.element tag attrs children)
      = .element tag attrs children :: find notBearing children := by
  simp [findNode, notBearing, hb]

mutual
/-- One run of the loop does not add elements to the selection of the loop, and
takes at least one away when there is one. -/
theorem count_unwrapNode {M : Type} (h : HtmlLib M) (hr : h.RoundTrip) :
    ∀ n : Node,
      (find notBearing (unwrapNode h n)).length ≤ (findNode notBearing n).length ∧
      (0 < (findNode notBearing n).length →
        (find notBearing (unwrapNode h n)).length < (findNode notBearing n).length)
  | .text _ => by simp [unwrapNode, find, findNode]
  | .element tag attrs children => by
    by_cases hb : bearing attrs = true
    · have ih := count_unwrapEach h hr children
      have h1 : unwrapNode h (.element tag attrs children)
          = [.element tag attrs (unwrapEach h children)] := by simp [unwrapNode, hb]
      rw [h1, find_singleton, findNode_notBearing_of_bearing _ _ _ hb,
        findNode_notBearing_of_bearing _ _ _ hb]
      exact ih
    · simp only [Bool.not_eq_true] at hb
      have h1 : unwrapNode h (.element tag attrs children) = children := by
        simp [unwrapNode, hb, hr children]
      rw [h1, findNode_notBearing_of_not _ _ _ hb]
      simp
/-- One run of the loop on a sequence of siblings. -/
theorem count_unwrapEach {M : Type} (h : HtmlLib M) (hr : h.RoundTrip) :
    ∀ ns : List Node,
      (find notBearing (unwrapEach h ns)).length ≤ (find notBearing ns).length ∧
      (0 < (find notBearing ns).length →
        (find notBearing (unwrapEach h ns)).length < (find notBearing ns).length)
  | [] => by simp [unwrapEach, find]
  | c :: cs => by
    have h1 := count_unwrapNode h hr c
    have h2 := count_unwrapEach h hr cs
    rw [unwrapEach, find_append, find]
    simp only [List.length_append]
    constructor
    · omega
    · intro hpos
      omega
end

theorem unwrapAll_append (xs ys : List Node) :
    unwrapAll (xs ++ ys) = unwrapAll xs ++ unwrapAll ys := by
  induction xs with
  | nil => simp [unwrapAll]
  | cons x xs ih => simp [unwrapAll, ih, List.append_assoc]

theorem unwrapAll_singleton (n : Node) : unwrapAll [n] = unwrapAllNode n := by
  simp [unwrapAll]

mutual
/-- A run of the loop does not change where the unwrapping ends. -/
theorem unwrapAll_unwrapNode {M : Type} (h : HtmlLib M) (hr : h.RoundTrip) :
    ∀ n : Node, unwrapAll (unwrapNode h n) = unwrapAllNode n
  | .text _ => by simp [unwrapNode, unwrapAll, unwrapAllNode]
  | .element tag attrs children => by
    by_cases hb : bearing attrs = true
    · have ih := unwrapAll_unwrapEach h hr children
      simp [unwrapNode, hb, unwrapAll, unwrapAllNode, ih]
    · simp only [Bool.not_eq_true] at hb
      simp [unwrapNode, hb, hr children, unwrapAllNode]
/-- A run of the loop on a sequence of siblings does not change where the
unwrapping ends. -/
theorem unwrapAll_unwrapEach {M : Type} (h : HtmlLib M) (hr : h.RoundTrip) :
    ∀ ns : List Node, unwrapAll (unwrapEach h ns) = unwrapAll ns
  | [] => by simp [unwrapEach]
  | c :: cs => by
    rw [unwrapEach, unwrapAll_append, unwrapAll_unwrapNode h hr c,
      unwrapAll_unwrapEach h hr cs, unwrapAll]
end

mutual
/-- A node below which the selection of the loop is empty is left as it is. -/
theorem unwrapAllNode_of_empty :
    ∀ n : Node, findNode notBearing n = [] → unwrapAllNode n = [n]
  | .text _, _ => by simp [unwrapAllNode]
  | .element tag attrs children, hn => by
    by_cases hb : bearing attrs = true
    · rw [findNode_notBearing_of_bearing _ _ _ hb] at hn
      simp [unwrapAllNode, hb, unwrapAll_of_empty children hn]
    · simp only [Bool.not_eq_true] at hb
      rw [findNode_notBearing_of_not _ _ _ hb] at hn
      simp at hn
/-- A tree in which the selection of the loop is empty is left as it is. -/
theorem unwrapAll_of_empty : ∀ ns : List Node, find notBearing ns = [] → unwrapAll ns = ns
  | [], _ => by simp [unwrapAll]
  | c :: cs, hn => by
    rw [find, List.append_eq_nil] at hn
    rw [unwrapAll, unwrapAllNode_of_empty c hn.1, unwrapAll_of_empty cs hn.2]
    rfl
end

mutual
/-- Where the unwrapping ends no element lacks both attributes. -/
theorem find_notBearing_unwrapAllNode : ∀ n : Node, find notBearing (unwrapAllNode n) = []
  | .text _ => by simp [unwrapAllNode, find, findNode]
  | .element tag attrs children => by
    by_cases hb : bearing attrs = true
    · have ih := find_notBearing_unwrapAll children
      have h1 : unwrapAllNode (.element tag attrs children)
          = [.element tag attrs (unwrapAll children)] := by simp [unwrapAllNode, hb]
      rw [h1, find_singleton, findNode_notBearing_of_bearing _ _ _ hb]
      exact ih
    · simp only [Bool.not_eq_true] at hb
      simp [unwrapAllNode, hb, find_notBearing_unwrapAll children]
/-- Where the unwrapping ends no element of a sequence lacks both attributes. -/
theorem find_notBearing_unwrapAll : ∀ ns : List Node, find notBearing (unwrapAll ns) = []
  | [] => by simp [unwrapAll, find]
  | c :: cs => by
    rw [unwrapAll, find_append, find_notBearing_unwrapAllNode c, find_notBearing_unwrapAll cs]
    rfl
end

/-- The loop comes to its end within as many runs as there are elements without
`itemprop` and `itemscope`, and it ends where the unwrapping ends. -/
theorem unwrapLoop_eq {M : Type} (h : HtmlLib M) (hr : h.RoundTrip) :
    ∀ (fuel : Nat) (dom : List Node), (find notBearing dom).length ≤ fuel →
      unwrapLoop h fuel dom = some (unwrapAll dom) := by
  intro fuel
  induction fuel with
  | zero =>
    intro dom hle
    have hnil : find notBearing dom = [] := List.length_eq_zero.mp (by omega)
    simp [unwrapLoop, hnil, unwrapAll_of_empty dom hnil]
  | succ fuel ih =>
    intro dom hle
    by_cases hpos : 0 < (find notBearing dom).length
    · have hlt := (count_unwrapEach h hr dom).2 hpos
      rw [unwrapLoop, if_pos hpos, ih (unwrapEach h dom) (by omega),
        unwrapAll_unwrapEach h hr dom]
    · have hnil : find notBearing dom = [] := List.length_eq_zero.mp (by omega)
      simp [unwrapLoop, hnil, unwrapAll_of_empty dom hnil]

/-- Whenever the loop ends, no element of its result lacks both attributes. -/
theorem find_notBearing_of_unwrapLoop {M : Type} (h : HtmlLib M) :
    ∀ (fuel : Nat) (dom pruned : List Node), unwrapLoop h fuel dom = some pruned →
      find notBearing pruned = [] := by
  intro fuel
  induction fuel with
  | zero =>
    intro dom pruned hp
    by_cases hpos : 0 < (find notBearing dom).length
    · simp [unwrapLoop, hpos] at hp
    · simp only [unwrapLoop, if_neg hpos, Option.some.injEq] at hp
      rw [← hp]
      exact List.length_eq_zero.mp (by omega)
  | succ fuel ih =>
    intro dom pruned hp
    by_cases hpos : 0 < (find notBearing dom).length
    · rw [unwrapLoop, if_pos hpos] at hp
      exact ih _ _ hp
    · simp only [unwrapLoop, if_neg hpos, Option.some.injEq] at hp
      rw [← hp]
      exact List.length_eq_zero.mp (by omega)

/-- On a tree without elements that lack both attributes the loop ends at once. -/
theorem unwrapLoop_of_empty {M : Type} (h : HtmlLib M) (fuel : Nat) (dom : List Node)
    (hnil : find notBearing dom = []) : unwrapLoop h fuel dom = some dom := by
  cases fuel <;> simp [unwrapLoop, hnil]

theorem removeEach_append (xs ys : List Node) :
    removeEach (xs ++ ys) = removeEach xs ++ removeEach ys := by
  induction xs with
  | nil => simp [removeEach]
  | cons x xs ih => simp [removeEach, ih, List.append_assoc]

theorem pruneSpec_append (xs ys : List Node) :
    pruneSpec (xs ++ ys) = pruneSpec xs ++ pruneSpec ys := by
  induction xs with
  | nil => simp [pruneSpec]
  | cons x xs ih => simp [pruneSpec, ih, List.append_assoc]

theorem nearestBearing_append (xs ys : List Node) :
    nearestBearing (xs ++ ys) = nearestBearing xs ++ nearestBearing ys := by
  induction xs with
  | nil => simp [nearestBearing]
  | cons x xs ih => simp [nearestBearing, ih, List.append_assoc]

theorem elementChildren_append (xs ys : List Node) :
    elementChildren (xs ++ ys) = elementChildren xs ++ elementChildren ys := by
  simp [elementChildren]

mutual
/-- The removal followed by the complete unwrapping is the pruned form. -/
theorem unwrapAll_removeNode : ∀ n : Node, unwrapAll (removeNode n) = pruneSpecNode n
  | .text _ => by simp [removeNode, unwrapAll, unwrapAllNode, pruneSpecNode]
  | .element tag attrs children => by
    have ih := unwrapAll_removeEach children
    by_cases hb : bearing attrs = true
    · simp [removeNode, found, hb, unwrapAll, unwrapAllNode, pruneSpecNode, ih]
    · simp only [Bool.not_eq_true] at hb
      by_cases hd : 0 < (find bearing children).length
      · simp [removeNode, found, hb, hd, unwrapAll, unwrapAllNode, pruneSpecNode, ih]
      · simp [removeNode, found, hb, hd, unwrapAll, pruneSpecNode]
/-- The removal followed by the complete unwrapping, on a sequence of siblings. -/
theorem unwrapAll_removeEach : ∀ ns : List Node, unwrapAll (removeEach ns) = pruneSpec ns
  | [] => by simp [removeEach, unwrapAll, pruneSpec]
  | c :: cs => by
    rw [removeEach, unwrapAll_append, unwrapAll_removeNode c, unwrapAll_removeEach cs, pruneSpec]
end

mutual
/-- The removal leaves a node as it is when no element at or below it lacks both
attributes. -/
theorem removeNode_of_empty : ∀ n : Node, findNode notBearing n = [] → removeNode n = [n]
  | .text _, _ => by simp [removeNode]
  | .element tag attrs children, hn => by
    by_cases hb : bearing attrs = true
    · rw [findNode_notBearing_of_bearing _ _ _ hb] at hn
      simp [removeNode, found, hb, removeEach_of_empty children hn]
    · simp only [Bool.not_eq_true] at hb
      rw [findNode_notBearing_of_not _ _ _ hb] at hn
      simp at hn
/-- The removal leaves a tree as it is when none of its elements lacks both
attributes. -/
theorem removeEach_of_empty : ∀ ns : List Node, find notBearing ns = [] → removeEach ns = ns
  | [], _ => by simp [removeEach]
  | c :: cs, hn => by
    rw [find, List.append_eq_nil] at hn
    rw [removeEach, removeNode_of_empty c hn.1, removeEach_of_empty cs hn.2]
    rfl
end

mutual
/-- An element found by `*` that matches a selector is found by that selector. -/
theorem mem_findNode_of_any (sel : List (String × String) → Bool) (tag : String)
    (attrs : List (String × String)) (children : List Node) (hsel : sel attrs = true) :
    ∀ n : Node, Node.element tag attrs children ∈ findNode anyElement n →
      Node.element tag attrs children ∈ findNode sel n
  | .text _, hm => by simp [findNode] at hm
  | .element t a ch, hm => by
    simp only [findNode, anyElement, if_true, List.mem_cons] at hm
    rcases hm with hm | hm
    · injection hm with h1 h2 h3
      subst h1; subst h2; subst h3
      simp [findNode, hsel]
    · have ih := mem_find_of_any sel tag attrs children hsel ch hm
      rw [findNode]
      split
      · exact List.mem_cons_of_mem _ ih
      · exact ih
/-- An element of a tree found by `*` that matches a selector is found by that
selector. -/
theorem mem_find_of_any (sel : List (String × String) → Bool) (tag : String)
    (attrs : List (String × String)) (children : List Node) (hsel : sel attrs = true) :
    ∀ ns : List Node, Node.element tag attrs children ∈ find anyElement ns →
      Node.element tag attrs children ∈ find sel ns
  | [], hm => by simp [find] at hm
  | c :: cs, hm => by
    rw [find, List.mem_append] at hm ⊢
    rcases hm with hm | hm
    · exact Or.inl (mem_findNode_of_any sel tag attrs children hsel c hm)
    · exact Or.inr (mem_find_of_any sel tag attrs children hsel cs hm)
end

/-- In a tree without elements that lack both attributes, every element carries
`itemprop` or `itemscope`. -/
theorem bearing_of_mem_find (ns : List Node) (hnil : find notBearing ns = [])
    (tag : String) (attrs : List (String × String)) (children : List Node)
    (hm : Node.element tag attrs children ∈ find anyElement ns) : bearing attrs = true := by
  by_cases hb : bearing attrs = true
  · exact hb
  · have hsel : notBearing attrs = true := by simpa [notBearing] using hb
    have := mem_find_of_any notBearing tag attrs children hsel ns hm
    rw [hnil] at this
    simp at this

/-- The pruning pass ends within as many runs of its loop as the removal leaves
elements without `itemprop` and `itemscope`, and gives the pruned form. -/
theorem prune_eq_pruneSpec {M : Type} (h : HtmlLib M) (hr : h.RoundTrip) (dom : List Node)
    (fuel : Nat) (hfuel : (find notBearing (removeEach dom)).length ≤ fuel) :
    prune h fuel dom = some (pruneSpec dom) := by
  rw [prune, unwrapLoop_eq h hr fuel _ hfuel, unwrapAll_removeEach]

theorem find_notBearing_pruneSpec (dom : List Node) : find notBearing (pruneSpec dom) = [] := by
  rw [← unwrapAll_removeEach]
  exact find_notBearing_unwrapAll _

/-- The pruning pass leaves a pruned tree as it is, whatever the number of runs
allowed to its loop. -/
theorem prune_of_empty {M : Type} (h : HtmlLib M) (fuel : Nat) (dom : List Node)
    (hnil : find notBearing dom = []) : prune h fuel dom = some dom := by
  rw [prune, removeEach_of_empty dom hnil]
  exact unwrapLoop_of_empty h fuel dom hnil

theorem sampleHtml_roundTrip (doc : Except String (List Node)) : (sampleHtml doc).RoundTrip :=
  fun _ => rfl

/-- C15 (pruning idempotence): the pruning pass applied to a tree that the pruning
pass returned gives that same tree back, whatever the number of runs allowed to its
loop; and when the markup round trip gives the child nodes back, the pruning pass
does return a tree for every document, so the statement is about every document
tree. -/
theorem prune_idempotent {M : Type} (h : HtmlLib M) :
    (∀ (fuel : Nat) (dom pruned : List Node), prune h fuel dom = some pruned →
      ∀ fuel', prune h fuel' pruned = some pruned) ∧
    (h.RoundTrip → ∀ dom : List Node, ∃ pruned : List Node,
      (∀ fuel, (find notBearing (removeEach dom)).length ≤ fuel →
        prune h fuel dom = some pruned) ∧
      ∀ fuel', prune h fuel' pruned = some pruned) := by
  constructor
  · intro fuel dom pruned hp fuel'
    exact prune_of_empty h fuel' pruned (find_notBearing_of_unwrapLoop h fuel _ pruned hp)
  · intro hr dom
    exact ⟨pruneSpec dom, fun fuel hfuel => prune_eq_pruneSpec h hr dom fuel hfuel,
      fun fuel' => prune_of_empty h fuel' _ (find_notBearing_pruneSpec dom)⟩

/-- C15 on the sample document: the pruned tree is returned as it is, also with no
run of the loop allowed. -/
theorem prune_idempotent_witness :
    prune (sampleHtml (.ok sampleDocument)) 4 sampleDocument
      = some [.text "intro ",
          .element "div" [("itemscope", ""), ("itemprop", "author")]
            [.element "span" [("itemprop", "name")] [.text "Jo"], .text " "]] ∧
    ∀ fuel', prune (sampleHtml (.ok sampleDocument)) fuel'
        [.text "intro ",
          .element "div" [("itemscope", ""), ("itemprop", "author")]
            [.element "span" [("itemprop", "name")] [.text "Jo"], .text " "]]
      = some [.text "intro ",
          .element "div" [("itemscope", ""), ("itemprop", "author")]
            [.element "span" [("itemprop", "name")] [.text "Jo"], .text " "]] :=
  ⟨rfl, (prune_idempotent (sampleHtml (.ok sampleDocument))).1 4 sampleDocument _ rfl⟩

/-- C16 (a parse failure is atomic): when the document parser returns an error for
the reader's content, `Parse` returns that error and the parser as it was before
the call, for every number of runs allowed to the pruning loop (none is made), so
the result map of a parser just made by `NewParser` is still unset. -/
theorem parse_failure_atomic {M U : Type} (h : HtmlLib M) (fuel : Nat) (p : Parser U)
    (err : String) (herr : h.newDocument p.r = .error err) :
    Parse h fuel p = some (some err, p) ∧
    (Parse h fuel p).map (fun res => res.2.object) = some p.object ∧
    (∀ (lib : UrlLib U) (r : String) (baseURL : U), p = NewParser lib r baseURL →
      (Parse h fuel p).map (fun res => res.2.object) = some none) := by
  have hp : Parse h fuel p = some (some err, p) := by
    simp [Parse, herr]
  refine ⟨hp, by rw [hp]; rfl, ?_⟩
  intro lib r baseURL hnew
  rw [hp, hnew]
  rfl

/-- C16 with a document parser that fails: the error comes back and `object` stays
unset, against a successful call on the sample document, which sets it. -/
theorem parse_failure_atomic_witness :
    Parse (sampleHtml (.error "unexpected EOF")) 0 (NewParser sampleLib "<html" ⟨"http://ex.com", "/"⟩)
      = some (some "unexpected EOF", NewParser sampleLib "<html" ⟨"http://ex.com", "/"⟩) ∧
    (NewParser sampleLib "<html" (⟨"http://ex.com", "/"⟩ : SampleUrl)).object = none ∧
    (Parse (sampleHtml (.ok sampleDocument)) 4 sampleParser).map (fun res => (res.1, res.2.object))
      = some (none, some [("author", .nested [("name", .scalar "Jo")])]) :=
  ⟨(parse_failure_atomic (sampleHtml (.error "unexpected EOF")) 0
      (NewParser sampleLib "<html" ⟨"http://ex.com", "/"⟩) "unexpected EOF" rfl).1, rfl, rfl⟩

theorem findNode_bearing_of_not_found (n : Node) (hf : found n = false) :
    findNode bearing n = [] := by
  cases n with
  | text d => simp [findNode]
  | element tag attrs children =>
    simp only [found, Bool.or_eq_false_iff, decide_eq_false_iff_not, Nat.not_lt,
      Nat.le_zero_eq, List.length_eq_zero] at hf
    simp [findNode, hf.1, hf.2]

theorem removeNode_of_not_found (n : Node) (hf : found n = false) (he : n.isElement = true) :
    removeNode n = [] := by
  cases n with
  | text d => simp [Node.isElement] at he
  | element tag attrs children => simp [removeNode, hf]

/-- The removal on children none of which is `found`: the text nodes stay. -/
theorem removeEach_of_none_found (ns : List Node) (hall : ∀ c ∈ ns, found c = false) :
    removeEach ns = ns.filter (fun c => !c.isElement) := by
  induction ns with
  | nil => simp [removeEach]
  | cons c cs ih =>
    have hc := hall c (by simp)
    have hcs := ih (fun d hd => hall d (List.mem_cons_of_mem _ hd))
    cases c with
    | text d => simp [removeEach, removeNode, Node.isElement, hcs]
    | element tag attrs children =>
      simp [removeEach, removeNode, hc, Node.isElement, hcs]

theorem find_of_no_element (sel : List (String × String) → Bool) (ns : List Node)
    (hall : ∀ c ∈ ns, c.isElement = false) : find sel ns = [] := by
  induction ns with
  | nil => simp [find]
  | cons c cs ih =>
    have hc := hall c (by simp)
    cases c with
    | text d =>
      simp [find, findNode, ih (fun d hd => hall d (List.mem_cons_of_mem _ hd))]
    | element tag attrs children => simp [Node.isElement] at hc

mutual
/-- Below a node without an element that carries `itemprop` or `itemscope` there
is no nearest such element. -/
theorem nearestBearingNode_of_empty :
    ∀ n : Node, findNode bearing n = [] → nearestBearingNode n = []
  | .text _, _ => by simp [nearestBearingNode]
  | .element tag attrs children, hn => by
    by_cases hb : bearing attrs = true
    · simp [findNode, hb] at hn
    · simp only [Bool.not_eq_true] at hb
      simp only [findNode, hb] at hn
      simp [nearestBearingNode, hb, nearestBearing_of_empty children (by simpa using hn)]
/-- In a sequence of nodes without an element that carries `itemprop` or
`itemscope` there is no nearest such element. -/
theorem nearestBearing_of_empty : ∀ ns : List Node, find bearing ns = [] → nearestBearing ns = []
  | [], _ => by simp [nearestBearing]
  | c :: cs, hn => by
    rw [find, List.append_eq_nil] at hn
    rw [nearestBearing, nearestBearingNode_of_empty c hn.1, nearestBearing_of_empty cs hn.2]
    rfl
end

mutual
/-- The elements at the top of the pruned form of a node are the nearest elements
with `itemprop` or `itemscope` at or below the node, each with its children
pruned. -/
theorem elementChildren_pruneSpecNode :
    ∀ n : Node, elementChildren (pruneSpecNode n) = (nearestBearingNode n).map pruneImage
  | .text _ => by simp [pruneSpecNode, nearestBearingNode, elementChildren, Node.isElement]
  | .element tag attrs children => by
    by_cases hb : bearing attrs = true
    · simp [pruneSpecNode, nearestBearingNode, hb, elementChildren, Node.isElement, pruneImage]
    · simp only [Bool.not_eq_true] at hb
      by_cases hd : 0 < (find bearing children).length
      · simp only [pruneSpecNode, nearestBearingNode, hb, hd, if_true]
        exact elementChildren_pruneSpec children
      · have hnil : find bearing children = [] := List.length_eq_zero.mp (by omega)
        simp [pruneSpecNode, nearestBearingNode, hb, hnil, elementChildren,
          nearestBearing_of_empty children hnil]
/-- The elements at the top of the pruned form of a sequence of nodes are its
nearest elements with `itemprop` or `itemscope`, each with its children pruned. -/
theorem elementChildren_pruneSpec :
    ∀ ns : List Node, elementChildren (pruneSpec ns) = (nearestBearing ns).map pruneImage
  | [] => by simp [pruneSpec, nearestBearing, elementChildren]
  | c :: cs => by
    rw [pruneSpec, nearestBearing, elementChildren_append, elementChildren_pruneSpecNode c,
      elementChildren_pruneSpec cs, List.map_append]
end

mutual
/-- The elements of the pruned form of a node are, by tag and attributes and in
document order, the elements with `itemprop` or `itemscope` at or below it. -/
theorem labels_pruneSpecNode :
    ∀ n : Node, (find anyElement (pruneSpecNode n)).map label = (findNode bearing n).map label
  | .text _ => by simp [pruneSpecNode, find, findNode]
  | .element tag attrs children => by
    have ih := labels_pruneSpec children
    by_cases hb : bearing attrs = true
    · simp [pruneSpecNode, hb, find, findNode, anyElement, label, ih]
    · simp only [Bool.not_eq_true] at hb
      by_cases hd : 0 < (find bearing children).length
      · simp only [pruneSpecNode, findNode, hb, hd, if_true]
        exact ih
      · have hnil : find bearing children = [] := List.length_eq_zero.mp (by omega)
        simp [pruneSpecNode, findNode, hb, hnil, find]
/-- The elements of the pruned form of a tree are, by tag and attributes and in
document order, its elements with `itemprop` or `itemscope`. -/
theorem labels_pruneSpec :
    ∀ ns : List Node, (find anyElement (pruneSpec ns)).map label = (find bearing ns).map label
  | [] => by simp [pruneSpec, find]
  | c :: cs => by
    rw [pruneSpec, find_append, List.map_append, labels_pruneSpecNode c, labels_pruneSpec cs,
      find, List.map_append]
end

/-- With a library whose markup round trip gives the child nodes back, the
pruning pass returns the pruned form `pruneSpec` of the document; the elements of
the pruned form are, with the same tags and attributes and in the same document
order, the elements of the document that carry `itemprop` or `itemscope`; and the
elements at the top of the pruned form of any sequence of nodes are its nearest
elements with `itemprop` or `itemscope`, each with its children pruned in the same
way. -/
theorem exactRoundTrip_keeps_bearing {M : Type} (h : HtmlLib M) (hr : h.RoundTrip)
    (dom : List Node) :
    (∀ fuel, (find notBearing (removeEach dom)).length ≤ fuel →
      prune h fuel dom = some (pruneSpec dom)) ∧
    (find anyElement (pruneSpec dom)).map label = (find bearing dom).map label ∧
    (∀ nodes : List Node,
      elementChildren (pruneSpec nodes) = (nearestBearing nodes).map pruneImage) ∧
    (∀ (tag : String) (attrs : List (String × String)) (children : List Node),
      bearing attrs = true →
      pruneSpec [.element tag attrs children] = [pruneImage (.element tag attrs children)]) :=
  ⟨fun fuel hfuel => prune_eq_pruneSpec h hr dom fuel hfuel, labels_pruneSpec dom,
    elementChildren_pruneSpec,
    fun tag attrs children hb => by simp [pruneSpec, pruneSpecNode, hb, pruneImage]⟩

/-- Whenever the pruning pass returns a tree, every element of that tree carries
`itemprop` or `itemscope`, whatever the library does. -/
theorem bearing_of_prune {M : Type} (h : HtmlLib M) (fuel : Nat) (dom pruned : List Node)
    (hp : prune h fuel dom = some pruned) (tag : String) (attrs : List (String × String))
    (children : List Node)
    (hm : Node.element tag attrs children ∈ find anyElement pruned) : bearing attrs = true :=
  bearing_of_mem_find pruned (find_notBearing_of_unwrapLoop h fuel _ pruned hp)
    tag attrs children hm

/-! ### Deletion of the subtrees without microdata -/

theorem deleted_refl : ∀ ns : List Node, Deleted ns ns
  | [] => .nil
  | .text data :: xs => .keepText data (deleted_refl xs)
  | .element tag attrs children :: xs =>
    .keepElement tag attrs (deleted_refl children) (deleted_refl xs)

theorem deleted_append {as bs cs ds : List Node} (h1 : Deleted as bs) (h2 : Deleted cs ds) :
    Deleted (as ++ cs) (bs ++ ds) := by
  induction h1 with
  | nil => simpa using h2
  | drop tag attrs children hb hd _ ih => exact .drop tag attrs children hb hd ih
  | keepText data _ ih => exact .keepText data ih
  | keepElement tag attrs hch _ _ ih => exact .keepElement tag attrs hch ih

theorem found_eq_false_iff (tag : String) (attrs : List (String × String))
    (children : List Node) :
    found (.element tag attrs children) = false
      ↔ bearing attrs = false ∧ find bearing children = [] := by
  simp [found, List.length_eq_zero, Nat.pos_iff_ne_zero]

theorem findNode_bearing_length (tag : String) (attrs : List (String × String))
    (children : List Node) :
    (findNode bearing (.element tag attrs children)).length
      = (if bearing attrs then 1 else 0) + (find bearing children).length := by
  by_cases hb : bearing attrs = true
  · simp [findNode, hb, Nat.add_comm]
  · simp [findNode, hb]

/-- Deleting subtrees without microdata does not change how many elements carry
`itemprop` or `itemscope`. -/
theorem find_bearing_length_of_deleted {xs ys : List Node} (h : Deleted xs ys) :
    (find bearing xs).length = (find bearing ys).length := by
  induction h with
  | nil => rfl
  | drop tag attrs children hb hd _ ih =>
    rw [find, List.length_append, findNode_bearing_length, hb, hd, ih]
    simp
  | keepText data _ ih => simpa [find, findNode] using ih
  | keepElement tag attrs _ _ ihc ihx =>
    rw [find, find, List.length_append, List.length_append, findNode_bearing_length,
      findNode_bearing_length, ihc, ihx]

theorem found_of_deleted (tag : String) (attrs : List (String × String))
    {children children' : List Node} (h : Deleted children children') :
    found (.element tag attrs children) = found (.element tag attrs children') := by
  simp only [found, find_bearing_length_of_deleted h]

/-- The removal step does not see the subtrees without microdata: a tree and the
tree without some of them are left alike. -/
theorem removeEach_of_deleted {xs ys : List Node} (h : Deleted xs ys) :
    removeEach xs = removeEach ys := by
  induction h with
  | nil => rfl
  | drop tag attrs children hb hd _ ih =>
    have hf : found (.element tag attrs children) = false :=
      (found_eq_false_iff tag attrs children).mpr ⟨hb, hd⟩
    rw [removeEach, removeNode, if_neg (by simp [hf]), ih]
    rfl
  | keepText data _ ih => rw [removeEach, removeEach, ih]
  | keepElement tag attrs hch _ ihc ihx =>
    rw [removeEach, removeEach, removeNode, removeNode, found_of_deleted tag attrs hch, ihc, ihx]

/-- The removal step deletes subtrees without microdata only. -/
theorem deleted_removeEach : ∀ ns : List Node, Deleted ns (removeEach ns)
  | [] => .nil
  | .text data :: xs => by
    rw [removeEach, removeNode]
    exact .keepText data (deleted_removeEach xs)
  | .element tag attrs children :: xs => by
    rw [removeEach, removeNode]
    by_cases hf : found (.element tag attrs children) = true
    · rw [if_pos hf]
      exact .keepElement tag attrs (deleted_removeEach children) (deleted_removeEach xs)
    · rw [if_neg hf]
      simp only [Bool.not_eq_true] at hf
      have hfb := (found_eq_false_iff tag attrs children).mp hf
      exact .drop tag attrs children hfb.1 hfb.2 (deleted_removeEach xs)

/-- After the removal step every element, at any depth, carries `itemprop` or
`itemscope` or has a descendant that does. -/
theorem found_of_mem_removeEach :
    ∀ (ns : List Node) (e : Node), e ∈ find anyElement (removeEach ns) → found e = true
  | [], e, hm => by simp [removeEach, find] at hm
  | .text data :: xs, e, hm => by
    rw [removeEach, removeNode, find_append] at hm
    simp only [find, findNode, List.append_nil, List.nil_append] at hm
    exact found_of_mem_removeEach xs e hm
  | .element tag attrs children :: xs, e, hm => by
    rw [removeEach, removeNode] at hm
    by_cases hf : found (.element tag attrs children) = true
    · rw [if_pos hf, find_append, find_singleton] at hm
      simp only [findNode, anyElement, if_true, List.mem_append, List.mem_cons] at hm
      rcases hm with (hm | hm) | hm
      · rw [hm, ← found_of_deleted tag attrs (deleted_removeEach children)]
        exact hf
      · exact found_of_mem_removeEach children e hm
      · exact found_of_mem_removeEach xs e hm
    · rw [if_neg hf] at hm
      exact found_of_mem_removeEach xs e (by simpa using hm)

/-- The children of an element that are all without microdata can be deleted: what
stays are the text nodes among them. -/
theorem deleted_of_none_found (ns : List Node) (hall : ∀ c ∈ ns, found c = false) :
    Deleted ns (ns.filter (fun c => !c.isElement)) := by
  induction ns with
  | nil => exact .nil
  | cons c cs ih =>
    have hc := hall c (by simp)
    have hcs := ih (fun d hd => hall d (List.mem_cons_of_mem _ hd))
    cases c with
    | text data =>
      simp only [List.filter, Node.isElement, Bool.not_false]
      exact .keepText data hcs
    | element tag attrs children =>
      have hfb := (found_eq_false_iff tag attrs children).mp hc
      simp only [List.filter, Node.isElement, Bool.not_true]
      exact .drop tag attrs children hfb.1 hfb.2 hcs

/-- C17 (subtrees without microdata are deleted with their text), for every
library: an element that carries neither `itemprop` nor `itemscope` and has no
descendant carrying one is removed with all its content by the removal step, not
unwrapped; the removal step deletes such elements only, and all of them, at every
depth; so a document and the same document without some of these elements (at any
depth, inside any element) give the same tree after the removal, the same result
of the pruning pass and the same extracted values. In particular the child
elements of an element that are all of this kind can be deleted, which leaves the
element with its own text nodes only, and such an element extracts as a scalar
built from the text of these nodes. -/
theorem unmarked_subtree_deleted {M : Type} (h : HtmlLib M) :
    (∀ (tag : String) (attrs : List (String × String)) (children : List Node),
      bearing attrs = false → find bearing children = [] →
      removeNode (.element tag attrs children) = []) ∧
    (∀ dom : List Node,
      Deleted dom (removeEach dom) ∧
      ∀ e ∈ find anyElement (removeEach dom), found e = true) ∧
    (∀ dom dom' : List Node, Deleted dom dom' →
      removeEach dom = removeEach dom' ∧
      ∀ fuel, prune h fuel dom = prune h fuel dom' ∧
        ∀ (U : Type) (p : Parser U),
          (prune h fuel dom).map (extractDocument p)
            = (prune h fuel dom').map (extractDocument p)) ∧
    (∀ (pre post xs ys : List Node) (tag : String) (attrs : List (String × String)),
      Deleted xs ys →
      Deleted (pre ++ .element tag attrs xs :: post) (pre ++ .element tag attrs ys :: post)) ∧
    (∀ (ptag : String) (pattrs : List (String × String)) (pchildren : List Node),
      (∀ c ∈ pchildren, found c = false) →
      Deleted [.element ptag pattrs pchildren]
        [.element ptag pattrs (pchildren.filter (fun c => !c.isElement))] ∧
      (bearing pattrs = true →
        ∀ fuel, prune h fuel [.element ptag pattrs pchildren]
          = some [.element ptag pattrs (pchildren.filter (fun c => !c.isElement))]) ∧
      ∀ (U : Type) (p : Parser U),
        contribution p pattrs (pchildren.filter (fun c => !c.isElement))
          = .scalar (leafValue p pattrs
              (nodesText (pchildren.filter (fun c => !c.isElement))))) := by
  refine ⟨?_, ?_, ?_, ?_, ?_⟩
  · intro tag attrs children hb hd
    exact removeNode_of_not_found _ ((found_eq_false_iff tag attrs children).mpr ⟨hb, hd⟩) rfl
  · intro dom
    exact ⟨deleted_removeEach dom, found_of_mem_removeEach dom⟩
  · intro dom dom' hdel
    have hrem := removeEach_of_deleted hdel
    refine ⟨hrem, fun fuel => ?_⟩
    have hp : prune h fuel dom = prune h fuel dom' := by rw [prune, prune, hrem]
    exact ⟨hp, fun U p => by rw [hp]⟩
  · intro pre post xs ys tag attrs hdel
    exact deleted_append (deleted_refl pre) (.keepElement tag attrs hdel (deleted_refl post))
  · intro ptag pattrs pchildren hall
    have hdel := deleted_of_none_found pchildren hall
    have htexts : ∀ c ∈ pchildren.filter (fun c => !c.isElement), c.isElement = false := by
      intro c hc
      simpa using (List.mem_filter.mp hc).2
    refine ⟨.keepElement ptag pattrs hdel .nil, ?_, ?_⟩
    · intro hpb fuel
      have hrem : removeEach [.element ptag pattrs pchildren]
          = [.element ptag pattrs (pchildren.filter (fun c => !c.isElement))] := by
        simp [removeEach, removeNode, found, hpb, removeEach_of_none_found pchildren hall]
      rw [prune, hrem]
      apply unwrapLoop_of_empty
      rw [find_singleton, findNode_notBearing_of_bearing _ _ _ hpb]
      exact find_of_no_element _ _ htexts
    · intro U p
      apply contribution_leaf
      simp only [elementChildren, List.filter_eq_nil_iff]
      intro c hc
      simp [htexts c hc]

/-- C17 on `<div><p itemprop="name">Jo <b>bold <i>and more</i></b>!</p><ul><li>x</li></ul></div>`:
the `b` element, two levels below the `div` that is unwrapped, goes with its text,
and the value of `name` is `"Jo !"`, with a library whose markup round trip is
exact and with one that drops tags and merges text. -/
theorem unmarked_subtree_deleted_witness :
    Deleted boldDocument boldDocumentDeleted ∧
    removeEach boldDocument = boldDocumentDeleted ∧
    (∀ fuel, prune (sampleHtml (.ok boldDocument)) fuel boldDocument
      = prune (sampleHtml (.ok boldDocument)) fuel boldDocumentDeleted) ∧
    (prune (sampleHtml (.ok boldDocument)) 3 boldDocument).map (extractDocument sampleParser)
      = some [("name", .scalar "Jo !")] ∧
    (prune (fragmentLib (.ok boldDocument)) 2 boldDocument).map (extractDocument sampleParser)
      = some [("name", .scalar "Jo !")] :=
  have hdel : Deleted boldDocument boldDocumentDeleted :=
    .keepElement "html" []
      (.drop "head" [] [] rfl rfl
        (.keepElement "body" []
          (.keepElement "div" []
            (.keepElement "p" [("itemprop", "name")]
              (.keepText "Jo "
                (.drop "b" [] [.text "bold ", .element "i" [] [.text "and more"]] rfl rfl
                  (.keepText "!" .nil)))
              (.drop "ul" [] [.element "li" [] [.text "x"]] rfl rfl .nil))
            .nil)
          .nil))
      .nil
  ⟨hdel, rfl,
   fun fuel => (((unmarked_subtree_deleted (sampleHtml (.ok boldDocument))).2.2.1
      boldDocument boldDocumentDeleted hdel).2 fuel).1,
   rfl, rfl⟩

/-! ### Elements with microdata that the pruning pass loses -/

/-- C18 fails on the code where the markup round trip of the unwrapping loop is not
exact. For `<table><tr itemscope itemprop="row"><td itemprop="name">Jo</td></tr></table>`
the loop first unwraps `html`, then `table`: the inner markup of `table` is parsed
outside a table, where the `tbody`, `tr` and `td` start tags are ignored, so both
elements with microdata are lost, the pruned tree is the text `Jo` alone and the
extracted map is empty; with an exact round trip the `tr` element and its `td`
child are kept. For
`<body itemscope itemtype="http://schema.org/Person"><span itemprop="name">Jo</span></body>`
the `body` element is lost when `html` is unwrapped, and `name` is extracted at the
root. -/
theorem prune_loses_bearing :
    (find bearing tableDocument).map label
      = [("tr", [("itemscope", ""), ("itemprop", "row")]), ("td", [("itemprop", "name")])] ∧
    prune (fragmentLib (.ok tableDocument)) 2 tableDocument = some [.text "Jo"] ∧
    (Parse (fragmentLib (.ok tableDocument)) 2 sampleParser).map (fun res => res.2.object)
      = some (some []) ∧
    prune (sampleHtml (.ok tableDocument)) 4 tableDocument
      = some [.element "tr" [("itemscope", ""), ("itemprop", "row")]
          [.element "td" [("itemprop", "name")] [.text "Jo"]]] ∧
    (Parse (sampleHtml (.ok tableDocument)) 4 sampleParser).map (fun res => res.2.object)
      = some (some [("row", .nested [("name", .scalar "Jo")])]) ∧
    (find bearing bodyDocument).map label
      = [("body", [("itemscope", ""), ("itemtype", "http://schema.org/Person")]),
         ("span", [("itemprop", "name")])] ∧
    prune (fragmentLib (.ok bodyDocument)) 1 bodyDocument
      = some [.element "span" [("itemprop", "name")] [.text "Jo"]] ∧
    (Parse (fragmentLib (.ok bodyDocument)) 1 sampleParser).map (fun res => res.2.object)
      = some (some [("name", .scalar "Jo")]) ∧
    (Parse (sampleHtml (.ok bodyDocument)) 1 sampleParser).map (fun res => res.2.object)
      = some (some [("Person", .nested [("name", .scalar "Jo")])]) :=
  ⟨rfl, rfl, rfl, rfl, rfl, rfl, rfl, rfl, rfl⟩

end Microdata
